import Mathlib

/-!
Verification development for `embeddingdb.js` (`src/index.js`), a tiled
incremental product-quantization query engine for the browser.

The source file exports five items; the two with interesting logic of their
own are modelled here as Lean functions:

* `flattenCodebook` — pure row-major flattening of a nested codebook into a
  `Float32Array`-like buffer (src/index.js lines 104-107);
* `queryToTiledDist` — the tiled incremental scheduler (src/index.js lines
  55-95) driving shards → chunks → distance-kernel calls, the shared
  distance array, tick-gated top-k recomputation, cancellation polling and
  progress events.

The numeric kernels (`queryDist`, `distTopK`) run inside external ONNX
graphs, so their outputs are modelled as oracles: `kernel` gives the
distance tile returned for a chunk, `topkFn` the top-k engine result as a
function of the distance array.  Wall-clock time (`Date.now()`) is an oracle
`clock` mapping the n-th call to a timestamp, and the cancellation callback
`continueFn` is an oracle `cont` mapping the n-th poll to a Boolean.
Timestamps are `Nat` milliseconds; the source's `distTime - lastPaint >
env.maxTick` on JS numbers agrees with truncated `Nat` subtraction because
`maxTick ≥ 0`.  Element values of the distance array are an opaque type `α`
and top-k results an opaque type `τ`.
-/

namespace EmbeddingDB

/-- Configuration record, mirroring the source constant
`env = {maxTick: 30, chunkSize: 100000}`. -/
structure Env where
  maxTick : Nat
  chunkSize : Nat
  deriving DecidableEq

/-- The source constant `env` with its default values. -/
def env : Env := { maxTick := 30, chunkSize := 100000 }

/-- One embedding shard as consumed by the scheduler: the scheduler reads
only `embeddingData.length` (bytes, one byte per subspace per item) and
`offset` of each `{data, offset}` shard object. -/
structure Shard where
  dataLen : Nat
  offset : Nat
  deriving DecidableEq

/-- An entry of the flattened codebook buffer.  `Float32Array.from` coerces
a missing (`undefined`) nested entry to `NaN`; we keep the payload opaque
and record that coercion as the distinguished value `nan`. -/
inductive JsNum (α : Type) where
  | val (x : α)
  | nan
  deriving DecidableEq

/-- The body of the `Float32Array.from` mapping function in the source
(line 106):
`codebk[Math.floor(i / nc / sd)][Math.floor(i / sd) % nc][i % sd]`
with `nc = codebk[0].length`, `sd = codebk[0][0].length`.
Indexing a missing group or centroid yields `undefined`, and indexing into
`undefined` throws a `TypeError`; a missing innermost float is `undefined`
and is coerced to `NaN` by `Float32Array.from`.  For indices below the
computed buffer length, `Nat` floor division agrees with
`Math.floor` of the JS float divisions. -/
def flattenEntry (codebk : List (List (List α))) (nc sd idx : Nat) :
    Except String (JsNum α) :=
  match codebk[idx / nc / sd]? with
  | none => .error "TypeError"
  | some grp =>
    match grp[(idx / sd) % nc]? with
    | none => .error "TypeError"
    | some cent =>
      match cent[idx % sd]? with
      | none => .ok .nan
      | some x => .ok (.val x)

/-- Left-to-right traversal that aborts on the first thrown error, as the
`Float32Array.from` callback loop does. -/
def mapThrow (f : Nat → Except String β) : List Nat → Except String (List β)
  | [] => .ok []
  | a :: l =>
    match f a with
    | .error e => .error e
    | .ok b =>
      match mapThrow f l with
      | .error e => .error e
      | .ok bs => .ok (b :: bs)

/-- `flattenCodebook` (src/index.js lines 104-107): builds a buffer of
length `codebk.length * codebk[0].length * codebk[0][0].length` by the
row-major index formula.  An empty codebook or an empty first group makes
the length expression itself index into `undefined`, throwing. -/
def flattenCodebook (codebk : List (List (List α))) :
    Except String (List (JsNum α)) :=
  match codebk with
  | [] => .error "TypeError"
  | g0 :: _ =>
    match g0 with
    | [] => .error "TypeError"
    | c0 :: _ =>
      mapThrow (flattenEntry codebk g0.length c0.length)
        (List.range (codebk.length * g0.length * c0.length))

/-- Rectangularity of a codebook as the spec words it: all groups share one
centroid count and all centroids share one dimension. -/
def Rectangular (codebk : List (List (List α))) : Prop :=
  (∀ g ∈ codebk, ∀ g2 ∈ codebk, g.length = g2.length) ∧
    ∀ g ∈ codebk, ∀ c ∈ g, ∀ g2 ∈ codebk, ∀ c2 ∈ g2, c.length = c2.length

instance (codebk : List (List (List α))) : Decidable (Rectangular codebk) := by
  unfold Rectangular; infer_instance

/-- External collaborators of one `queryToTiledDist` run, as oracles:
`clock n` is the result of the n-th `Date.now()` call, `cont n` the result
of the n-th `continueFn()` poll, `kernel s i j` the j-th entry of the
distance tile the ONNX distance graph returns for chunk `i` of shard `s`,
and `topkFn d` the result of the ONNX filtered-top-k graph on distance
array `d` (facet column and filter scalars are fixed for the run). -/
structure Oracles (α τ : Type) where
  clock : Nat → Nat
  cont : Nat → Bool
  kernel : Nat → Nat → Nat → α
  topkFn : List α → τ

/-- Observable steps of a run, in order.  `kernelCall` records a distance
kernel invocation for chunk `i` of shard `s` (whose writes cover
`[off + i, off + i + chunkSize)`); `distanceUpdate` and `topkUpdate` are
the `intermediateValueFn` events of the chunk loop; `topkCall` and
`finalTopkCall` record the scalar arguments of each `distTopK` engine
invocation (`filterValue`, `filterZero`, `filterShim`, `k`);
`finalUpdate` is the combined terminal `{dists, distTime, topk}` event.
`distTime` fields carry the kernel-completion timestamp of the chunk. -/
inductive Event (α τ : Type) where
  | kernelCall (s i off startTime : Nat)
  | distanceUpdate (snapshot : List α) (distTime lastPaint : Nat)
  | topkCall (snapshot : List α) (filterValue filterZero filterShim kk : Int)
      (distTime : Nat)
  | topkUpdate (result : τ) (distTime : Nat)
  | finalTopkCall (snapshot : List α) (filterValue filterZero filterShim kk : Int)
  | finalUpdate (snapshot : List α) (result : τ)
  deriving DecidableEq

/-- Scheduler state threaded through the loops of `queryToTiledDist`:
the shared distance array, the recomputation clock `lastPaint`, the number
of `Date.now()` calls and `continueFn()` polls made so far, the
`timingStrings` accumulator (chunk durations, with top-k durations pushed
negated as the source pushes them with a leading minus sign) and the event
trace. -/
structure St (α τ : Type) where
  dists : List α
  lastPaint : Nat
  clockIdx : Nat
  pollIdx : Nat
  timings : List Int
  trace : List (Event α τ)
  deriving DecidableEq

/-- The chunk write-back loop (src/index.js lines 75-77):
`for (j = 0; j < chunkSize; j++) dists[off + i + j] = tile[j]`.
`List.set` ignores out-of-range indices exactly as assignment into a
`Float32Array` does. -/
def writeTile (d : List α) (off i : Nat) (tile : Nat → α) (cs : Nat) :
    List α :=
  (List.range cs).foldl (fun d j => d.set (off + i + j) (tile j)) d

/-- The successive values of the inner loop counter
`for (i = 0; i < embeddingData.length / codebk.length; i += chunkSize)`:
the multiples `m * cs` with `m * cs * numSub < dataLen`, of which there are
`⌈dataLen / (cs * numSub)⌉` (for `cs, numSub > 0`; for `cs * numSub = 0`
the source loop would never terminate once entered, and the model is used
only away from that degenerate configuration). -/
def chunkStarts (numSub cs dataLen : Nat) : List Nat :=
  (List.range ((dataLen + (cs * numSub - 1)) / (cs * numSub))).map
    (fun m => m * cs)

/-- The body of one chunk iteration (src/index.js lines 69-88): take a
start timestamp, run the distance kernel, write the tile into `dists`,
take the completion timestamp, record the timing and emit a
`DistanceUpdate`; then, if this is chunk 0 of shard 0 or the completion
timestamp exceeds `lastPaint` by more than the tick budget, run the top-k
engine with the literal scalars `filterZero = 0`, `filterShim = 1024`,
emit a `TopKUpdate`, yield, and reset `lastPaint` to a fresh timestamp. -/
def processChunk (e : Env) (O : Oracles α τ) (fv kk : Int) (s off i : Nat)
    (st : St α τ) : St α τ :=
  let startTime := O.clock st.clockIdx
  let dists1 := writeTile st.dists off i (O.kernel s i) e.chunkSize
  let distTime := O.clock (st.clockIdx + 1)
  let timings1 := st.timings ++ [(distTime : Int) - (startTime : Int)]
  let trace1 := st.trace ++
    [.kernelCall s i off startTime, .distanceUpdate dists1 distTime st.lastPaint]
  if (i = 0 ∧ s = 0) ∨ e.maxTick < distTime - st.lastPaint then
    let topk := O.topkFn dists1
    let topktime := O.clock (st.clockIdx + 2)
    let lastPaint2 := O.clock (st.clockIdx + 3)
    { dists := dists1, lastPaint := lastPaint2, clockIdx := st.clockIdx + 4,
      pollIdx := st.pollIdx,
      timings := timings1 ++ [-((topktime : Int) - (distTime : Int))],
      trace := trace1 ++ [.topkCall dists1 fv 0 1024 kk distTime,
                          .topkUpdate topk distTime] }
  else
    { dists := dists1, lastPaint := st.lastPaint, clockIdx := st.clockIdx + 2,
      pollIdx := st.pollIdx, timings := timings1, trace := trace1 }

/-- The inner chunk loop of one shard.  Each iteration whose loop bound
holds evaluates `continueFn()` (consuming one poll); a `false` poll exits
the loop, after which the remaining chunk starts are not visited and not
polled (the Boolean component records that the loop was left). -/
def chunkFold (e : Env) (O : Oracles α τ) (fv kk : Int) (s off : Nat)
    (l : List Nat) (acc : St α τ × Bool) : St α τ × Bool :=
  l.foldl
    (fun acc i =>
      if acc.2 then acc
      else if O.cont acc.1.pollIdx then
        (processChunk e O fv kk s off i { acc.1 with pollIdx := acc.1.pollIdx + 1 },
         false)
      else ({ acc.1 with pollIdx := acc.1.pollIdx + 1 }, true))
    acc

/-- One shard iteration of the outer loop (the outer loop itself performs
no cancellation check: a `false` poll only leaves the inner loop). -/
def runShard (e : Env) (O : Oracles α τ) (fv kk : Int) (numSub s : Nat)
    (sh : Shard) (st : St α τ) : St α τ :=
  (chunkFold e O fv kk s sh.offset (chunkStarts numSub e.chunkSize sh.dataLen)
    (st, false)).1

/-- Pair each shard with its absolute index `embeddingCounter`, starting
from `n`. -/
def enumShards : Nat → List Shard → List (Nat × Shard)
  | _, [] => []
  | n, sh :: rest => (n, sh) :: enumShards (n + 1) rest

/-- The outer shard loop (src/index.js lines 66-90). -/
def runShards (e : Env) (O : Oracles α τ) (fv kk : Int) (numSub : Nat)
    (l : List (Nat × Shard)) (st : St α τ) : St α τ :=
  l.foldl (fun st p => runShard e O fv kk numSub p.1 p.2 st) st

/-- `queryToTiledDist` (src/index.js lines 55-95).  `numSub` is
`codebk.length`, `fv` the `firstLetterInt` facet filter value, `kk` the
requested `k` (an arbitrary integer: the source never validates it), and
`ec` the `embeddingCounter` start parameter (default 0).  The initial
`lastPaint = Date.now()` consumes clock call 0.  After the loops, one last
`continueFn()` poll guards the final top-k engine invocation and the
combined terminal event. -/
def queryToTiledDist (e : Env) (O : Oracles α τ) (numSub : Nat)
    (shards : List Shard) (dists0 : List α) (fv kk : Int) (ec : Nat) :
    St α τ :=
  let st0 : St α τ :=
    { dists := dists0, lastPaint := O.clock 0, clockIdx := 1, pollIdx := 0,
      timings := [], trace := [] }
  let st1 := runShards e O fv kk numSub (enumShards ec (shards.drop ec)) st0
  if O.cont st1.pollIdx then
    { st1 with
      pollIdx := st1.pollIdx + 1
      trace := st1.trace ++
        [.finalTopkCall st1.dists fv 0 1024 kk,
         .finalUpdate st1.dists (O.topkFn st1.dists)] }
  else { st1 with pollIdx := st1.pollIdx + 1 }

/-- The distance-kernel invocations of a trace, as `(shard, chunkStart,
offset)` records. -/
def kernelRecs (tr : List (Event α τ)) : List (Nat × Nat × Nat) :=
  tr.filterMap fun e =>
    match e with
    | .kernelCall s i off _ => some (s, i, off)
    | _ => none

/-- The `finalUpdate` payloads of a trace. -/
def finalRecs (tr : List (Event α τ)) : List (List α × τ) :=
  tr.filterMap fun e =>
    match e with
    | .finalUpdate snap res => some (snap, res)
    | _ => none

/-- The kernel-completion timestamps attached to the in-scan `TopKUpdate`
events of a trace. -/
def topkTimes (tr : List (Event α τ)) : List Nat :=
  tr.filterMap fun e =>
    match e with
    | .topkUpdate _ t => some t
    | _ => none

/-- The scalar arguments `(filterValue, filterZero, filterShim, k)` of
every top-k engine invocation of a trace, in-scan and final alike. -/
def engineCalls (tr : List (Event α τ)) : List (Int × Int × Int × Int) :=
  tr.filterMap fun e =>
    match e with
    | .topkCall _ fv fz fs kk _ => some (fv, fz, fs, kk)
    | .finalTopkCall _ fv fz fs kk => some (fv, fz, fs, kk)
    | _ => none

/-- Whether a trace event is an in-scan `TopKUpdate`. -/
def Event.isTopkUpdate : Event α τ → Bool
  | .topkUpdate _ _ => true
  | _ => false

/-- The chunk slots of a shard list in processing order: for shard index
`s` with offset `off`, one `(s, i, off)` record per chunk start `i`. -/
def scanSlots (numSub cs : Nat) : List (Nat × Shard) → List (Nat × Nat × Nat)
  | [] => []
  | p :: l =>
    ((chunkStarts numSub cs p.2.dataLen).map fun i => (p.1, i, p.2.offset)) ++
      scanSlots numSub cs l

/-- The logical item count: the sum of `dataLen / numSub` over the shards. -/
def totalItems (numSub : Nat) (shards : List Shard) : Nat :=
  (shards.map (fun sh => sh.dataLen / numSub)).sum

/-- Whether the chunk slot `r = (s, i, off)` covers logical index `idx`,
i.e. `idx ∈ [off + i, off + i + cs)`. -/
def coversIdx (cs idx : Nat) (r : Nat × Nat × Nat) : Bool :=
  decide (r.2.2 + r.2.1 ≤ idx ∧ idx < r.2.2 + r.2.1 + cs)

/-- Replay the writes of a list of chunk slots onto a distance array. -/
def applySlots (O : Oracles α τ) (cs : Nat) (l : List (Nat × Nat × Nat))
    (d : List α) : List α :=
  l.foldl (fun d r => writeTile d r.2.2 r.2.1 (O.kernel r.1 r.2.1) cs) d

/-! ### Generic helper lemmas -/

/-- Pointwise success of a `mapThrow` traversal. -/
theorem mapThrow_ok_of_forall {β : Type} {f : Nat → Except String β} :
    ∀ l : List Nat, (∀ a ∈ l, ∃ b, f a = .ok b) →
      ∃ out : List β, mapThrow f l = .ok out ∧ out.length = l.length ∧
        ∀ (j a : Nat), l[j]? = some a →
          ∃ b, f a = .ok b ∧ out[j]? = some b := by
  intro l
  induction l with
  | nil => intro _; exact ⟨[], rfl, by simp, by simp⟩
  | cons a l ih =>
    intro h
    obtain ⟨b, hb⟩ := h a (by simp)
    obtain ⟨out, hout, hlen, hget⟩ := ih (fun a ha => h a (by simp [ha]))
    refine ⟨b :: out, ?_, by simp [hlen], ?_⟩
    · unfold mapThrow
      rw [hb, hout]
    · intro j c hc
      cases j with
      | zero => simp at hc; subst hc; exact ⟨b, hb, by simp⟩
      | succ j =>
        simp only [List.getElem?_cons_succ] at hc
        obtain ⟨b2, hb2, hb2o⟩ := hget j c hc
        exact ⟨b2, hb2, by simpa using hb2o⟩

/-! ### Codebook flattening: index arithmetic and success -/

/-- Decomposition of the row-major index used by the flattening formula. -/
theorem rowMajor_arith (s c d nc sd : Nat) (hc : c < nc) (hd : d < sd) :
    ((s * nc + c) * sd + d) / nc / sd = s ∧
      (((s * nc + c) * sd + d) / sd) % nc = c ∧
      ((s * nc + c) * sd + d) % sd = d := by
  have hsd : 0 < sd := by omega
  have hq : 0 < nc * sd := Nat.mul_pos (by omega) hsd
  have hrearr : (s * nc + c) * sd + d = (c * sd + d) + s * (nc * sd) := by ring
  have hsmall : c * sd + d < nc * sd := by
    calc c * sd + d < c * sd + sd := by omega
    _ = (c + 1) * sd := by ring
    _ ≤ nc * sd := Nat.mul_le_mul_right sd hc
  refine ⟨?_, ?_, ?_⟩
  · rw [Nat.div_div_eq_div_mul, hrearr, Nat.add_mul_div_right _ _ hq,
      Nat.div_eq_of_lt hsmall, Nat.zero_add]
  · have h2 : (s * nc + c) * sd + d = d + (s * nc + c) * sd := by ring
    rw [h2, Nat.add_mul_div_right _ _ hsd, Nat.div_eq_of_lt hd, Nat.zero_add,
      Nat.mul_comm s nc, Nat.mul_add_mod, Nat.mod_eq_of_lt hc]
  · have h2 : (s * nc + c) * sd + d = d + (s * nc + c) * sd := by ring
    rw [h2, Nat.add_mul_mod_self_right, Nat.mod_eq_of_lt hd]

/-- Every entry of the flattening map succeeds as soon as every group is at
least as long as group 0 (rectangularity of centroid dimensions is NOT
needed: a short centroid only yields a `NaN` placeholder). -/
theorem flattenEntry_ok {α : Type} (codebk : List (List (List α)))
    (nc sd idx : Nat) (hnc : 0 < nc) (hsd : 0 < sd)
    (hlen : ∀ g ∈ codebk, nc ≤ g.length)
    (hidx : idx < codebk.length * nc * sd) :
    ∃ b, flattenEntry codebk nc sd idx = .ok b := by
  have hq : 0 < nc * sd := Nat.mul_pos hnc hsd
  have hs : idx / nc / sd < codebk.length := by
    rw [Nat.div_div_eq_div_mul]
    rw [Nat.div_lt_iff_lt_mul hq]
    calc idx < codebk.length * nc * sd := hidx
    _ = codebk.length * (nc * sd) := by ring
  obtain ⟨grp, hgrp⟩ : ∃ g, codebk[idx / nc / sd]? = some g :=
    ⟨_, List.getElem?_eq_getElem hs⟩
  have hcb : (idx / sd) % nc < grp.length := by
    have hmem : grp ∈ codebk := List.getElem?_mem hgrp
    exact Nat.lt_of_lt_of_le (Nat.mod_lt _ hnc) (hlen grp hmem)
  obtain ⟨cent, hcent⟩ : ∃ ct, grp[(idx / sd) % nc]? = some ct :=
    ⟨_, List.getElem?_eq_getElem hcb⟩
  unfold flattenEntry
  simp only [hgrp, hcent]
  cases cent[idx % sd]? with
  | none => exact ⟨.nan, rfl⟩
  | some x => exact ⟨.val x, rfl⟩

/-- C2: for every rectangular codebook and all valid indices `s`, `c`, `d`,
the flattened buffer holds `codebook[s][c][d]` at row-major position
`(s * numCentroids + c) * subspaceDim + d`. -/
theorem c2_flatten_roundtrip {α : Type} (g0 : List (List α))
    (gs : List (List (List α))) (c0 : List α) (cs : List (List α))
    (hg : g0 = c0 :: cs) (hrect : Rectangular (g0 :: gs)) (s c d : Nat)
    (hs : s < (g0 :: gs).length) (hc : c < g0.length) (hd : d < c0.length) :
    ∃ flat, flattenCodebook (g0 :: gs) = .ok flat ∧
      flat[(s * g0.length + c) * c0.length + d]? =
        (((g0 :: gs)[s]?.bind fun g => g[c]?.bind fun cent => cent[d]?).map
          JsNum.val) := by
  subst hg
  have hnc : 0 < (c0 :: cs).length := by simp
  have hsd : 0 < c0.length := by omega
  have hlen : ∀ g ∈ (c0 :: cs) :: gs, (c0 :: cs).length ≤ g.length := fun g hgm =>
    Nat.le_of_eq (hrect.1 (c0 :: cs) (List.mem_cons_self (c0 :: cs) gs) g hgm)
  have hidx : (s * (c0 :: cs).length + c) * c0.length + d <
      ((c0 :: cs) :: gs).length * (c0 :: cs).length * c0.length := by
    have hcs : c * c0.length + d < (c0 :: cs).length * c0.length := by
      calc c * c0.length + d < c * c0.length + c0.length := by omega
      _ = (c + 1) * c0.length := by ring
      _ ≤ (c0 :: cs).length * c0.length := Nat.mul_le_mul_right c0.length hc
    calc (s * (c0 :: cs).length + c) * c0.length + d
        = s * ((c0 :: cs).length * c0.length) + (c * c0.length + d) := by ring
    _ < s * ((c0 :: cs).length * c0.length) + (c0 :: cs).length * c0.length := by omega
    _ = (s + 1) * ((c0 :: cs).length * c0.length) := by ring
    _ ≤ ((c0 :: cs) :: gs).length * ((c0 :: cs).length * c0.length) :=
        Nat.mul_le_mul_right _ hs
    _ = ((c0 :: cs) :: gs).length * (c0 :: cs).length * c0.length := by ring
  obtain ⟨out, hout, hlenout, hget⟩ :=
    mapThrow_ok_of_forall
      (List.range (((c0 :: cs) :: gs).length * (c0 :: cs).length * c0.length))
      (fun a ha => flattenEntry_ok ((c0 :: cs) :: gs) (c0 :: cs).length c0.length a hnc hsd
        hlen (List.mem_range.mp ha))
  obtain ⟨harith1, harith2, harith3⟩ :=
    rowMajor_arith s c d (c0 :: cs).length c0.length hc hd
  obtain ⟨g, hgme⟩ : ∃ g, ((c0 :: cs) :: gs)[s]? = some g :=
    ⟨_, List.getElem?_eq_getElem hs⟩
  have hglen : g.length = (c0 :: cs).length :=
    hrect.1 g (List.getElem?_mem hgme) (c0 :: cs) (List.mem_cons_self (c0 :: cs) gs)
  obtain ⟨cent, hcme⟩ : ∃ ct, g[c]? = some ct :=
    ⟨_, List.getElem?_eq_getElem (hglen ▸ hc)⟩
  have hclen : cent.length = c0.length :=
    hrect.2 g (List.getElem?_mem hgme) cent (List.getElem?_mem hcme)
      (c0 :: cs) (List.mem_cons_self _ gs) c0 (List.mem_cons_self c0 cs)
  obtain ⟨x, hxme⟩ : ∃ x, cent[d]? = some x :=
    ⟨_, List.getElem?_eq_getElem (hclen ▸ hd)⟩
  have hentry : flattenEntry ((c0 :: cs) :: gs) (c0 :: cs).length c0.length
      ((s * (c0 :: cs).length + c) * c0.length + d) = .ok (.val x) := by
    unfold flattenEntry
    rw [harith1, harith2, harith3]
    simp only [hgme, hcme, hxme]
  obtain ⟨b, hb, hbo⟩ := hget ((s * (c0 :: cs).length + c) * c0.length + d)
    ((s * (c0 :: cs).length + c) * c0.length + d) (by rw [List.getElem?_range hidx])
  have hbx : b = .val x := by
    rw [hentry] at hb
    exact (Except.ok.injEq _ _).mp hb.symm
  refine ⟨out, ?_, ?_⟩
  · exact hout
  · rw [hbx] at hbo
    rw [hbo]
    simp only [hgme, Option.some_bind, hcme, hxme, Option.map_some']

/-- Witness for C2 at a concrete 2×2×2 codebook: position
`(1*2+0)*2+1 = 5` of the flattened buffer holds `codebook[1][0][1] = 6`. -/
theorem c2_flatten_roundtrip_witness :
    ∃ flat,
      flattenCodebook ([[[1, 2], [3, 4]], [[5, 6], [7, 8]]] :
        List (List (List Int))) = .ok flat ∧
      flat[(1 * 2 + 0) * 2 + 1]? =
        ((([[[1, 2], [3, 4]], [[5, 6], [7, 8]]] :
          List (List (List Int)))[1]?.bind fun g =>
            g[0]?.bind fun cent => cent[1]?).map JsNum.val) :=
  c2_flatten_roundtrip [[1, 2], [3, 4]] [[[5, 6], [7, 8]]] [1, 2] [[3, 4]]
    rfl (by decide) 1 0 1 (by decide) (by decide) (by decide)

/-- C7 counterexample: the codebook `[[[1]], [[2], [3]]]` has groups of
differing length (1 and 2), so it is not rectangular, yet `flattenCodebook`
returns a flattened buffer instead of failing with a shape error. -/
theorem c7_counterexample :
    ¬ Rectangular ([[[1]], [[2], [3]]] : List (List (List Int))) ∧
      flattenCodebook ([[[1]], [[2], [3]]] : List (List (List Int))) =
        .ok [.val 1, .val 2] := by
  constructor
  · decide
  · rfl

/-- C7 amended: `flattenCodebook` performs no rectangularity validation.
Whenever every group is at least as long as group 0 — a condition strictly
weaker than rectangularity, satisfiable by ragged codebooks — it returns a
flattened buffer; it never raises a shape error for such inputs. -/
theorem c7_no_shape_validation {α : Type} (g0 : List (List α))
    (gs : List (List (List α))) (c0 : List α) (cs : List (List α))
    (hg : g0 = c0 :: cs) (hlen : ∀ g ∈ g0 :: gs, g0.length ≤ g.length) :
    ∃ flat, flattenCodebook (g0 :: gs) = .ok flat := by
  subst hg
  obtain ⟨out, hout, -⟩ := mapThrow_ok_of_forall
    (List.range (((c0 :: cs) :: gs).length * (c0 :: cs).length * c0.length))
    (fun a ha => by
      rcases Nat.eq_zero_or_pos c0.length with h0 | hpos
      · rw [h0] at ha; simp at ha
      · exact flattenEntry_ok ((c0 :: cs) :: gs) (c0 :: cs).length c0.length a
          (by simp) hpos hlen (List.mem_range.mp ha))
  exact ⟨out, hout⟩

/-- Witness for the amended C7 at the non-rectangular codebook
`[[[1]], [[2], [3]]]`: flattening succeeds. -/
theorem c7_no_shape_validation_witness :
    ∃ flat, flattenCodebook ([[[1]], [[2], [3]]] : List (List (List Int))) =
      .ok flat :=
  c7_no_shape_validation [[1]] [[[2], [3]]] [1] [] rfl (by decide)

/-! ### Trace extraction through the scheduler steps -/

theorem kernelRecs_append (l1 l2 : List (Event α τ)) :
    kernelRecs (l1 ++ l2) = kernelRecs l1 ++ kernelRecs l2 :=
  List.filterMap_append l1 l2 _

theorem finalRecs_append (l1 l2 : List (Event α τ)) :
    finalRecs (l1 ++ l2) = finalRecs l1 ++ finalRecs l2 :=
  List.filterMap_append l1 l2 _

theorem topkTimes_append (l1 l2 : List (Event α τ)) :
    topkTimes (l1 ++ l2) = topkTimes l1 ++ topkTimes l2 :=
  List.filterMap_append l1 l2 _

theorem engineCalls_append (l1 l2 : List (Event α τ)) :
    engineCalls (l1 ++ l2) = engineCalls l1 ++ engineCalls l2 :=
  List.filterMap_append l1 l2 _

theorem processChunk_kernelRecs (e : Env) (O : Oracles α τ) (fv kk : Int)
    (s off i : Nat) (st : St α τ) :
    kernelRecs (processChunk e O fv kk s off i st).trace =
      kernelRecs st.trace ++ [(s, i, off)] := by
  simp only [processChunk]
  split <;> simp [kernelRecs_append, kernelRecs]

theorem processChunk_finalRecs (e : Env) (O : Oracles α τ) (fv kk : Int)
    (s off i : Nat) (st : St α τ) :
    finalRecs (processChunk e O fv kk s off i st).trace =
      finalRecs st.trace := by
  simp only [processChunk]
  split <;> simp [finalRecs_append, finalRecs]

theorem processChunk_dists (e : Env) (O : Oracles α τ) (fv kk : Int)
    (s off i : Nat) (st : St α τ) :
    (processChunk e O fv kk s off i st).dists =
      writeTile st.dists off i (O.kernel s i) e.chunkSize := by
  simp only [processChunk]
  split <;> rfl

theorem processChunk_pollIdx (e : Env) (O : Oracles α τ) (fv kk : Int)
    (s off i : Nat) (st : St α τ) :
    (processChunk e O fv kk s off i st).pollIdx = st.pollIdx := by
  simp only [processChunk]
  split <;> rfl

theorem processChunk_trace_ext (e : Env) (O : Oracles α τ) (fv kk : Int)
    (s off i : Nat) (st : St α τ) :
    ∃ tl, (processChunk e O fv kk s off i st).trace = st.trace ++ tl := by
  simp only [processChunk]
  split
  · exact ⟨_, List.append_assoc _ _ _⟩
  · exact ⟨_, rfl⟩

theorem chunkFold_broken (e : Env) (O : Oracles α τ) (fv kk : Int)
    (s off : Nat) : ∀ (l : List Nat) (st : St α τ),
    chunkFold e O fv kk s off l (st, true) = (st, true) := by
  intro l
  induction l with
  | nil => intro st; rfl
  | cons a l ih => intro st; exact ih st

theorem chunkFold_cont_spec (e : Env) (O : Oracles α τ) (fv kk : Int)
    (s off : Nat) (hcont : ∀ n, O.cont n = true) :
    ∀ (l : List Nat) (st : St α τ),
    kernelRecs (chunkFold e O fv kk s off l (st, false)).1.trace =
        kernelRecs st.trace ++ l.map (fun i => (s, i, off)) ∧
      finalRecs (chunkFold e O fv kk s off l (st, false)).1.trace =
        finalRecs st.trace := by
  intro l
  induction l with
  | nil => intro st; simp [chunkFold]
  | cons i l ih =>
    intro st
    have hstep : chunkFold e O fv kk s off (i :: l) (st, false) =
        chunkFold e O fv kk s off l
          (processChunk e O fv kk s off i { st with pollIdx := st.pollIdx + 1 },
           false) := by
      simp only [chunkFold, List.foldl_cons, hcont]
      rfl
    rw [hstep]
    obtain ⟨h1, h2⟩ := ih
      (processChunk e O fv kk s off i { st with pollIdx := st.pollIdx + 1 })
    constructor
    · rw [h1, processChunk_kernelRecs]
      simp
    · rw [h2, processChunk_finalRecs]

theorem runShards_cont_spec (e : Env) (O : Oracles α τ) (fv kk : Int)
    (numSub : Nat) (hcont : ∀ n, O.cont n = true) :
    ∀ (l : List (Nat × Shard)) (st : St α τ),
    kernelRecs (runShards e O fv kk numSub l st).trace =
        kernelRecs st.trace ++ scanSlots numSub e.chunkSize l ∧
      finalRecs (runShards e O fv kk numSub l st).trace =
        finalRecs st.trace := by
  intro l
  induction l with
  | nil => intro st; simp [runShards, scanSlots]
  | cons p l ih =>
    intro st
    have hstep : runShards e O fv kk numSub (p :: l) st =
        runShards e O fv kk numSub l (runShard e O fv kk numSub p.1 p.2 st) :=
      rfl
    rw [hstep]
    obtain ⟨h1, h2⟩ := ih (runShard e O fv kk numSub p.1 p.2 st)
    obtain ⟨g1, g2⟩ := chunkFold_cont_spec e O fv kk p.1 p.2.offset hcont
      (chunkStarts numSub e.chunkSize p.2.dataLen) st
    constructor
    · rw [h1]
      unfold runShard
      rw [g1, scanSlots]
      simp
    · rw [h2]
      unfold runShard
      rw [g2]

/-! ### Write-range semantics of a chunk -/

theorem writeTile_succ (d : List α) (off i : Nat) (tile : Nat → α) (cs : Nat) :
    writeTile d off i tile (cs + 1) =
      (writeTile d off i tile cs).set (off + i + cs) (tile cs) := by
  unfold writeTile
  rw [List.range_succ, List.foldl_append]
  rfl

theorem writeTile_length (d : List α) (off i : Nat) (tile : Nat → α) :
    ∀ cs, (writeTile d off i tile cs).length = d.length := by
  intro cs
  induction cs with
  | zero => rfl
  | succ cs ih => rw [writeTile_succ, List.length_set, ih]

/-- The chunk write-back loop writes exactly the index range
`[off + i, off + i + cs)` (intersected with the array bounds) and leaves
every other position unchanged. -/
theorem writeTile_getElem (d : List α) (off i : Nat) (tile : Nat → α) :
    ∀ cs p, (writeTile d off i tile cs)[p]? =
      if off + i ≤ p ∧ p < off + i + cs ∧ p < d.length
      then some (tile (p - (off + i))) else d[p]? := by
  intro cs
  induction cs with
  | zero =>
    intro p
    rw [if_neg (by omega)]
    rfl
  | succ cs ih =>
    intro p
    rw [writeTile_succ]
    by_cases hp : off + i + cs = p
    · subst hp
      by_cases hlen : off + i + cs < d.length
      · rw [List.getElem?_set_self (by rw [writeTile_length]; exact hlen)]
        rw [if_pos ⟨by omega, by omega, hlen⟩]
        have harg : off + i + cs - (off + i) = cs := by omega
        rw [harg]
      · rw [List.set_eq_of_length_le (by rw [writeTile_length]; omega)]
        rw [ih]
        rw [if_neg (by omega), if_neg (by omega)]
    · rw [List.getElem?_set_ne hp, ih]
      by_cases h1 : off + i ≤ p ∧ p < off + i + cs ∧ p < d.length
      · rw [if_pos h1, if_pos ⟨h1.1, by omega, h1.2.2⟩]
      · rw [if_neg h1, if_neg (fun h2 => h1 ⟨h2.1, by omega, h2.2.2⟩)]

/-! ### Chunk-start arithmetic -/

theorem chunkStarts_mult (ns cs t : Nat) (hq : 0 < cs * ns) :
    chunkStarts ns cs (t * (cs * ns)) = (List.range t).map (fun m => m * cs) := by
  unfold chunkStarts
  have hcount : (t * (cs * ns) + (cs * ns - 1)) / (cs * ns) = t := by
    rw [Nat.add_comm, Nat.add_mul_div_right _ _ hq,
      Nat.div_eq_of_lt (Nat.sub_lt hq Nat.one_pos), Nat.zero_add]
  rw [hcount]

theorem countP_range_unique (p : Nat → Bool) :
    ∀ n m, m < n → p m = true → (∀ m2, m2 < n → p m2 = true → m2 = m) →
      (List.range n).countP p = 1 := by
  intro n
  induction n with
  | zero => intro m hm; omega
  | succ n ih =>
    intro m hm hp huniq
    rw [List.range_succ, List.countP_append]
    by_cases hmn : m = n
    · have h0 : (List.range n).countP p = 0 :=
        List.countP_eq_zero.mpr fun a ha hpa => by
          have h1 := List.mem_range.mp ha
          have h2 := huniq a (by omega) hpa
          omega
      rw [h0]
      have hpn : p n = true := by rw [← hmn]; exact hp
      simp [List.countP_cons, hpn]
    · have hm2 : m < n := by omega
      rw [ih m hm2 hp (fun m2 h2 hp2 => huniq m2 (by omega) hp2)]
      have hpn : ¬p n = true := fun hpn => hmn (huniq n (by omega) hpn).symm
      simp [List.countP_cons, hpn]

/-- Within one shard whose byte length is `t * (cs * ns)` (item count
`t * cs`), the chunk slots covering a logical index `idx` number exactly
one when `idx` lies in the shard's interval and zero otherwise. -/
theorem countP_chunkStarts (cs ns idx off t j : Nat) (hcs : 0 < cs)
    (hns : 0 < ns) :
    (chunkStarts ns cs (t * (cs * ns))).countP
        (fun i => coversIdx cs idx (j, i, off)) =
      if off ≤ idx ∧ idx < off + t * cs then 1 else 0 := by
  have hq : 0 < cs * ns := Nat.mul_pos hcs hns
  rw [chunkStarts_mult ns cs t hq, List.countP_map]
  have hcomp : ((fun i => coversIdx cs idx (j, i, off)) ∘ fun m => m * cs) =
      fun m => decide (off + m * cs ≤ idx ∧ idx < off + m * cs + cs) := rfl
  rw [hcomp]
  by_cases h : off ≤ idx ∧ idx < off + t * cs
  · rw [if_pos h]
    obtain ⟨h1, h2⟩ := h
    obtain ⟨q, rfl⟩ : ∃ q, idx = off + q := ⟨idx - off, by omega⟩
    have hqlt : q < t * cs := Nat.lt_of_add_lt_add_left h2
    have hmod : q % cs < cs := Nat.mod_lt q hcs
    have hdm : q / cs * cs + q % cs = q := by
      have h3 := Nat.div_add_mod q cs
      rw [Nat.mul_comm] at h3
      exact h3
    apply countP_range_unique _ t (q / cs)
    · exact (Nat.div_lt_iff_lt_mul hcs).mpr hqlt
    · rw [decide_eq_true_eq]
      constructor
      · exact Nat.add_le_add_left (Nat.le.intro hdm) off
      · have h4 : q < q / cs * cs + cs := by
          calc q = q / cs * cs + q % cs := hdm.symm
          _ < q / cs * cs + cs := Nat.add_lt_add_left hmod _
        calc off + q < off + (q / cs * cs + cs) := Nat.add_lt_add_left h4 off
        _ = off + q / cs * cs + cs := by rw [Nat.add_assoc]
    · intro m2 hm2 hp2
      rw [decide_eq_true_eq] at hp2
      obtain ⟨ha, hb⟩ := hp2
      have ha2 : m2 * cs ≤ q := Nat.le_of_add_le_add_left ha
      have hb2 : q < (m2 + 1) * cs := by
        have h5 : off + q < off + (m2 * cs + cs) := by
          rw [← Nat.add_assoc]; exact hb
        have h6 := Nat.lt_of_add_lt_add_left h5
        calc q < m2 * cs + cs := h6
        _ = (m2 + 1) * cs := by ring
      exact (Nat.div_eq_of_lt_le ha2 hb2).symm
  · rw [if_neg h]
    apply List.countP_eq_zero.mpr
    intro m hm
    have hmt : m < t := List.mem_range.mp hm
    rw [decide_eq_true_eq]
    intro ⟨ha, hb⟩
    apply h
    constructor
    · calc off ≤ off + m * cs := Nat.le_add_right off _
      _ ≤ idx := ha
    · have h7 : off + m * cs + cs = off + (m + 1) * cs := by ring
      have h8 : (m + 1) * cs ≤ t * cs :=
        Nat.mul_le_mul_right cs (Nat.succ_le_of_lt hmt)
      calc idx < off + m * cs + cs := hb
      _ = off + (m + 1) * cs := h7
      _ ≤ off + t * cs := Nat.add_le_add_left h8 off

theorem scanSlots_countP (ns cs : Nat) (p : Nat × Nat × Nat → Bool) :
    ∀ l : List (Nat × Shard),
    (scanSlots ns cs l).countP p =
      (l.map (fun q => ((chunkStarts ns cs q.2.dataLen).map
        (fun i => (q.1, i, q.2.offset))).countP p)).sum := by
  intro l
  induction l with
  | nil => rfl
  | cons q l ih => simp only [scanSlots, List.countP_append, List.map_cons,
      List.sum_cons, ih]

theorem countP_eq_sum_map (p : Shard → Bool) :
    ∀ l : List Shard,
    l.countP p = (l.map (fun sh => if p sh then 1 else 0)).sum := by
  intro l
  induction l with
  | nil => rfl
  | cons a l ih =>
    rw [List.countP_cons, List.map_cons, List.sum_cons, ih]
    omega

theorem enumShards_map_snd : ∀ (n : Nat) (l : List Shard),
    (enumShards n l).map Prod.snd = l := by
  intro n l
  induction l generalizing n with
  | nil => rfl
  | cons sh l ih => simp [enumShards, ih]

theorem enumShards_mem_fst : ∀ (n : Nat) (l : List Shard)
    (q : Nat × Shard), q ∈ enumShards n l → n ≤ q.1 := by
  intro n l
  induction l generalizing n with
  | nil => intro q hq; simp [enumShards] at hq
  | cons sh l ih =>
    intro q hq
    rcases List.mem_cons.mp hq with h | h
    · rw [h]
    · exact Nat.le_of_succ_le (ih (n + 1) q h)

theorem enumShards_mem_snd : ∀ (n : Nat) (l : List Shard)
    (q : Nat × Shard), q ∈ enumShards n l → q.2 ∈ l := by
  intro n l
  induction l generalizing n with
  | nil => intro q hq; simp [enumShards] at hq
  | cons sh l ih =>
    intro q hq
    rcases List.mem_cons.mp hq with h | h
    · rw [h]; exact List.mem_cons_self sh l
    · exact List.mem_cons_of_mem sh (ih (n + 1) q h)

/-- Whether shard `sh` covers logical index `idx`, i.e.
`idx ∈ [offset, offset + itemCount)` with `itemCount = dataLen / numSub`. -/
def coversShard (ns idx : Nat) (sh : Shard) : Bool :=
  decide (sh.offset ≤ idx ∧ idx < sh.offset + sh.dataLen / ns)

/-- The final `continueFn()` check and terminal event of the run add no
distance-kernel records to the trace. -/
theorem run_kernelRecs (e : Env) (O : Oracles α τ) (fv kk : Int) (ns : Nat)
    (shards : List Shard) (d0 : List α) (ec : Nat) :
    kernelRecs (queryToTiledDist e O ns shards d0 fv kk ec).trace =
      kernelRecs (runShards e O fv kk ns (enumShards ec (shards.drop ec))
        { dists := d0, lastPaint := O.clock 0, clockIdx := 1, pollIdx := 0,
          timings := [], trace := ([] : List (Event α τ)) }).trace := by
  simp only [queryToTiledDist]
  split
  · rw [kernelRecs_append]
    simp [kernelRecs]
  · rfl

/-- C1: in a completed non-cancelled scan over shards whose item counts are
multiples of the chunk size and whose offsets partition `[0, totalItems)`,
every logical index is covered by exactly one distance-kernel chunk call,
and each chunk call writes exactly its index range
`[offset + i, offset + i + chunkSize)`. -/
theorem c1_full_coverage (e : Env) (O : Oracles α τ) (numSub : Nat)
    (shards : List Shard) (dists0 : List α) (fv kk : Int)
    (hcs : 0 < e.chunkSize) (hns : 0 < numSub)
    (hcont : ∀ n, O.cont n = true)
    (hmult : ∀ sh ∈ shards, e.chunkSize * numSub ∣ sh.dataLen)
    (hpart : ∀ idx, idx < totalItems numSub shards →
      shards.countP (coversShard numSub idx) = 1)
    (idx : Nat) (hidx : idx < totalItems numSub shards) :
    (kernelRecs
        (queryToTiledDist e O numSub shards dists0 fv kk 0).trace).countP
      (coversIdx e.chunkSize idx) = 1 ∧
    ∀ (d : List α) (tile : Nat → α) (off i p : Nat),
      (writeTile d off i tile e.chunkSize)[p]? =
        if off + i ≤ p ∧ p < off + i + e.chunkSize ∧ p < d.length
        then some (tile (p - (off + i))) else d[p]? := by
  refine ⟨?_, fun d tile off i p => writeTile_getElem d off i tile _ p⟩
  rw [run_kernelRecs]
  rw [(runShards_cont_spec e O fv kk numSub hcont
    (enumShards 0 (shards.drop 0)) _).1]
  have hd0 : shards.drop 0 = shards := List.drop_zero shards
  rw [hd0]
  have hnil : kernelRecs ([] : List (Event α τ)) = [] := rfl
  rw [hnil, List.nil_append]
  rw [scanSlots_countP]
  have hpoint : ∀ q ∈ enumShards 0 shards,
      ((chunkStarts numSub e.chunkSize q.2.dataLen).map
        (fun i => (q.1, i, q.2.offset))).countP (coversIdx e.chunkSize idx) =
      if coversShard numSub idx q.2 = true then 1 else 0 := by
    intro q hq
    obtain ⟨t, ht⟩ := hmult q.2 (enumShards_mem_snd 0 shards q hq)
    have ht2 : q.2.dataLen = t * (e.chunkSize * numSub) := by
      rw [ht]; ring
    have hitems : q.2.dataLen / numSub = t * e.chunkSize := by
      rw [ht2]
      have h3 : t * (e.chunkSize * numSub) = t * e.chunkSize * numSub := by
        ring
      rw [h3, Nat.mul_div_cancel _ hns]
    rw [List.countP_map]
    have hcomp : (coversIdx e.chunkSize idx ∘ fun i => (q.1, i, q.2.offset)) =
        fun i => coversIdx e.chunkSize idx (q.1, i, q.2.offset) := rfl
    rw [hcomp, ht2,
      countP_chunkStarts e.chunkSize numSub idx q.2.offset t q.1 hcs hns]
    simp only [coversShard, hitems, decide_eq_true_eq]
  rw [List.map_congr_left hpoint]
  have hsplit : (fun q : Nat × Shard =>
      if coversShard numSub idx q.2 = true then 1 else 0) =
      (fun sh => if coversShard numSub idx sh = true then 1 else 0) ∘
        Prod.snd := rfl
  rw [hsplit, ← List.map_map, enumShards_map_snd]
  rw [← countP_eq_sum_map]
  exact hpart idx hidx

/-- Witness for C1: two one-item shards with `chunkSize = 1`, offsets 0 and
1; index 1 is covered exactly once. -/
theorem c1_full_coverage_witness :
    (kernelRecs (queryToTiledDist ⟨30, 1⟩
        ({ clock := fun _ => 0, cont := fun _ => true,
           kernel := fun _ _ _ => (7 : Int), topkFn := fun _ => (0 : Int) } :
          Oracles Int Int) 1 [⟨1, 0⟩, ⟨1, 1⟩] [0, 0] 0 1 0).trace).countP
      (coversIdx 1 1) = 1 ∧
    ∀ (d : List Int) (tile : Nat → Int) (off i p : Nat),
      (writeTile d off i tile 1)[p]? =
        if off + i ≤ p ∧ p < off + i + 1 ∧ p < d.length
        then some (tile (p - (off + i))) else d[p]? :=
  c1_full_coverage ⟨30, 1⟩ _ 1 [⟨1, 0⟩, ⟨1, 1⟩] [0, 0] 0 1
    (by decide) (by decide) (fun _ => rfl)
    (by decide) (by decide) 1 (by decide)

/-- C3: when the cancellation predicate keeps reporting continue, every run
emits exactly one final combined event, carrying the final distance array
and a top-k result freshly computed from it — for every tick budget and
every clock, i.e. regardless of how recently the previous recomputation
happened. -/
theorem c3_final_event (e : Env) (O : Oracles α τ) (ns : Nat)
    (shards : List Shard) (d0 : List α) (fv kk : Int)
    (hcont : ∀ n, O.cont n = true) :
    finalRecs (queryToTiledDist e O ns shards d0 fv kk 0).trace =
      [((queryToTiledDist e O ns shards d0 fv kk 0).dists,
        O.topkFn (queryToTiledDist e O ns shards d0 fv kk 0).dists)] := by
  simp only [queryToTiledDist]
  rw [if_pos (hcont _)]
  rw [finalRecs_append]
  rw [(runShards_cont_spec e O fv kk ns hcont (enumShards 0 (shards.drop 0))
    { dists := d0, lastPaint := O.clock 0, clockIdx := 1, pollIdx := 0,
      timings := [], trace := ([] : List (Event α τ)) }).2]
  rfl

/-- Witness for C3 at a concrete two-chunk run. -/
theorem c3_final_event_witness :
    finalRecs (queryToTiledDist ⟨30, 1⟩
        ({ clock := fun _ => 0, cont := fun _ => true,
           kernel := fun _ _ _ => (7 : Int), topkFn := fun d => d.length } :
          Oracles Int Nat) 1 [⟨2, 0⟩] [0, 0] 0 1 0).trace =
      [((queryToTiledDist ⟨30, 1⟩
          ({ clock := fun _ => 0, cont := fun _ => true,
             kernel := fun _ _ _ => (7 : Int), topkFn := fun d => d.length } :
            Oracles Int Nat) 1 [⟨2, 0⟩] [0, 0] 0 1 0).dists,
        (queryToTiledDist ⟨30, 1⟩
          ({ clock := fun _ => 0, cont := fun _ => true,
             kernel := fun _ _ _ => (7 : Int), topkFn := fun d => d.length } :
            Oracles Int Nat) 1 [⟨2, 0⟩] [0, 0] 0 1 0).dists.length)] :=
  c3_final_event ⟨30, 1⟩ _ 1 [⟨2, 0⟩] [0, 0] 0 1 (fun _ => rfl)

/-- C9: on an empty shard list the scheduler performs no kernel call and no
write, yet — when the single cancellation poll reports continue — it still
invokes the top-k engine once over the untouched distance array and emits
one final combined event carrying that result.  The resulting state is
given in full: the trace holds exactly the final engine call and the final
combined event. -/
theorem c9_empty_shards (e : Env) (O : Oracles α τ) (ns : Nat) (d0 : List α)
    (fv kk : Int) (h : O.cont 0 = true) :
    queryToTiledDist e O ns ([] : List Shard) d0 fv kk 0 =
      { dists := d0, lastPaint := O.clock 0, clockIdx := 1, pollIdx := 1,
        timings := [],
        trace := [.finalTopkCall d0 fv 0 1024 kk,
                  .finalUpdate d0 (O.topkFn d0)] } := by
  simp only [queryToTiledDist, runShards, enumShards, List.drop_nil,
    List.foldl_nil]
  rw [if_pos h]
  simp

/-- Witness for C9 at a concrete configuration. -/
theorem c9_empty_shards_witness :
    queryToTiledDist ⟨30, 100000⟩
        ({ clock := fun _ => 0, cont := fun _ => true,
           kernel := fun _ _ _ => (7 : Int), topkFn := fun d => d.length } :
          Oracles Int Nat) 48 ([] : List Shard) [5, 5] 3 2 0 =
      { dists := [5, 5], lastPaint := 0, clockIdx := 1, pollIdx := 1,
        timings := [],
        trace := [.finalTopkCall [5, 5] 3 0 1024 2,
                  .finalUpdate [5, 5] 2] } :=
  c9_empty_shards ⟨30, 100000⟩ _ 48 [5, 5] 3 2 rfl

/-! ### Engine-call scalar arguments -/

theorem chunkFold_cons (e : Env) (O : Oracles α τ) (fv kk : Int)
    (s off i : Nat) (l : List Nat) (acc : St α τ × Bool) :
    chunkFold e O fv kk s off (i :: l) acc =
      chunkFold e O fv kk s off l
        (if acc.2 then acc
         else if O.cont acc.1.pollIdx then
           (processChunk e O fv kk s off i
             { acc.1 with pollIdx := acc.1.pollIdx + 1 }, false)
         else ({ acc.1 with pollIdx := acc.1.pollIdx + 1 }, true)) := rfl

theorem processChunk_engineCalls (e : Env) (O : Oracles α τ) (fv kk : Int)
    (s off i : Nat) (st : St α τ) (r : Int × Int × Int × Int)
    (hr : r ∈ engineCalls (processChunk e O fv kk s off i st).trace) :
    r ∈ engineCalls st.trace ∨ r = (fv, 0, 1024, kk) := by
  rw [processChunk] at hr
  split at hr
  · rw [engineCalls_append, engineCalls_append] at hr
    rcases List.mem_append.mp hr with h | h
    · rcases List.mem_append.mp h with h2 | h2
      · exact Or.inl h2
      · simp [engineCalls] at h2
    · have h3 : r = (fv, 0, 1024, kk) := by
        simpa [engineCalls] using h
      exact Or.inr h3
  · rw [engineCalls_append] at hr
    rcases List.mem_append.mp hr with h | h
    · exact Or.inl h
    · simp [engineCalls] at h

theorem chunkFold_cons_false (e : Env) (O : Oracles α τ) (fv kk : Int)
    (s off i : Nat) (l : List Nat) (st : St α τ) :
    chunkFold e O fv kk s off (i :: l) (st, false) =
      chunkFold e O fv kk s off l
        (if O.cont st.pollIdx then
          (processChunk e O fv kk s off i
            { st with pollIdx := st.pollIdx + 1 }, false)
         else ({ st with pollIdx := st.pollIdx + 1 }, true)) := rfl

theorem chunkFold_engineCalls (e : Env) (O : Oracles α τ) (fv kk : Int)
    (s off : Nat) : ∀ (l : List Nat) (st : St α τ) (b : Bool)
    (r : Int × Int × Int × Int),
    r ∈ engineCalls (chunkFold e O fv kk s off l (st, b)).1.trace →
    r ∈ engineCalls st.trace ∨ r = (fv, 0, 1024, kk) := by
  intro l
  induction l with
  | nil => intro st b r hr; exact Or.inl hr
  | cons i l ih =>
    intro st b r hr
    cases b with
    | true =>
      rw [chunkFold_broken] at hr
      exact Or.inl hr
    | false =>
      rw [chunkFold_cons_false] at hr
      by_cases hc : O.cont st.pollIdx
      · rw [if_pos hc] at hr
        rcases ih _ false r hr with h | h
        · exact processChunk_engineCalls e O fv kk s off i
            { st with pollIdx := st.pollIdx + 1 } r h
        · exact Or.inr h
      · rw [if_neg hc] at hr
        rcases ih _ true r hr with h | h
        · exact Or.inl h
        · exact Or.inr h

theorem runShards_engineCalls (e : Env) (O : Oracles α τ) (fv kk : Int)
    (ns : Nat) : ∀ (l : List (Nat × Shard)) (st : St α τ)
    (r : Int × Int × Int × Int),
    r ∈ engineCalls (runShards e O fv kk ns l st).trace →
    r ∈ engineCalls st.trace ∨ r = (fv, 0, 1024, kk) := by
  intro l
  induction l with
  | nil => intro st r hr; exact Or.inl hr
  | cons p l ih =>
    intro st r hr
    have hstep : runShards e O fv kk ns (p :: l) st =
        runShards e O fv kk ns l (runShard e O fv kk ns p.1 p.2 st) := rfl
    rw [hstep] at hr
    rcases ih _ r hr with h | h
    · exact chunkFold_engineCalls e O fv kk p.1 p.2.offset _ st false r h
    · exact Or.inr h

/-- C10: every top-k engine invocation of a run — in-scan and final alike —
receives exactly the caller's `filterValue` and `k` together with the fixed
literals `filterZero = 0` and `filterShim = 1024`; the two filter constants
are not configurable through any argument of `queryToTiledDist`. -/
theorem c10_engine_constants (e : Env) (O : Oracles α τ) (ns : Nat)
    (shards : List Shard) (d0 : List α) (fv kk : Int) (ec : Nat)
    (r : Int × Int × Int × Int)
    (hr : r ∈ engineCalls (queryToTiledDist e O ns shards d0 fv kk ec).trace) :
    r = (fv, 0, 1024, kk) := by
  rw [queryToTiledDist] at hr
  split at hr
  · rw [engineCalls_append] at hr
    rcases List.mem_append.mp hr with h | h
    · rcases runShards_engineCalls e O fv kk ns _ _ r h with h2 | h2
      · simp [engineCalls] at h2
      · exact h2
    · simpa [engineCalls] using h
  · rcases runShards_engineCalls e O fv kk ns _ _ r hr with h2 | h2
    · simp [engineCalls] at h2
    · exact h2

/-- Witness for C10: a concrete run makes an engine call, and that call
carries `(filterValue, 0, 1024, k) = (7, 0, 1024, 3)`. -/
theorem c10_engine_constants_witness :
    ((7 : Int), (0 : Int), (1024 : Int), (3 : Int)) ∈
      engineCalls (queryToTiledDist ⟨30, 100000⟩
        ({ clock := fun _ => 0, cont := fun _ => true,
           kernel := fun _ _ _ => (0 : Int), topkFn := fun _ => (0 : Int) } :
          Oracles Int Int) 48 ([] : List Shard) [0] 7 3 0).trace ∧
    ((7 : Int), (0 : Int), (1024 : Int), (3 : Int)) = (7, 0, 1024, 3) :=
  ⟨by decide,
   c10_engine_constants ⟨30, 100000⟩
     ({ clock := fun _ => 0, cont := fun _ => true,
        kernel := fun _ _ _ => (0 : Int), topkFn := fun _ => (0 : Int) } :
       Oracles Int Int) 48 [] [0] 7 3 0 (7, 0, 1024, 3) (by decide)⟩

/-! ### The requested `k` is passed through unexamined -/

/-- Erase the `k` field of the engine-call trace records. -/
def eraseK : Event α τ → Event α τ
  | .topkCall snap fv fz fs _ t => .topkCall snap fv fz fs 0 t
  | .finalTopkCall snap fv fz fs _ => .finalTopkCall snap fv fz fs 0
  | ev => ev

/-- Two scheduler states that agree on everything except the `k` recorded
inside engine-call trace events. -/
def KAgnostic (st st2 : St α τ) : Prop :=
  st.dists = st2.dists ∧ st.lastPaint = st2.lastPaint ∧
    st.clockIdx = st2.clockIdx ∧ st.pollIdx = st2.pollIdx ∧
    st.timings = st2.timings ∧ st.trace.map eraseK = st2.trace.map eraseK

theorem processChunk_kAgnostic (e : Env) (O : Oracles α τ) (fv kk kk2 : Int)
    (s off i : Nat) (st st2 : St α τ) (h : KAgnostic st st2) :
    KAgnostic (processChunk e O fv kk s off i st)
      (processChunk e O fv kk2 s off i st2) := by
  obtain ⟨h1, h2, h3, h4, h5, h6⟩ := h
  unfold processChunk
  rw [h1, h2, h3, h5]
  by_cases hcond : (i = 0 ∧ s = 0) ∨
      e.maxTick < O.clock (st2.clockIdx + 1) - st2.lastPaint
  · rw [if_pos hcond, if_pos hcond]
    exact ⟨rfl, rfl, rfl, h4, rfl, by
      simp [List.map_append, h6, eraseK]⟩
  · rw [if_neg hcond, if_neg hcond]
    exact ⟨rfl, rfl, rfl, h4, rfl, by
      simp [List.map_append, h6, eraseK]⟩

theorem chunkFold_kAgnostic (e : Env) (O : Oracles α τ) (fv kk kk2 : Int)
    (s off : Nat) : ∀ (l : List Nat) (st st2 : St α τ) (b : Bool),
    KAgnostic st st2 →
    KAgnostic (chunkFold e O fv kk s off l (st, b)).1
        (chunkFold e O fv kk2 s off l (st2, b)).1 ∧
      (chunkFold e O fv kk s off l (st, b)).2 =
        (chunkFold e O fv kk2 s off l (st2, b)).2 := by
  intro l
  induction l with
  | nil => intro st st2 b h; exact ⟨h, rfl⟩
  | cons i l ih =>
    intro st st2 b h
    cases b with
    | true =>
      rw [chunkFold_broken, chunkFold_broken]
      exact ⟨h, rfl⟩
    | false =>
      rw [chunkFold_cons_false, chunkFold_cons_false]
      have hpoll : st.pollIdx = st2.pollIdx := h.2.2.2.1
      rw [hpoll]
      by_cases hc : O.cont st2.pollIdx
      · rw [if_pos hc, if_pos hc]
        exact ih _ _ false (processChunk_kAgnostic e O fv kk kk2 s off i _ _
          ⟨h.1, h.2.1, h.2.2.1, by simp [hpoll], h.2.2.2.2.1, h.2.2.2.2.2⟩)
      · rw [if_neg hc, if_neg hc]
        exact ih _ _ true
          ⟨h.1, h.2.1, h.2.2.1, by simp [hpoll], h.2.2.2.2.1, h.2.2.2.2.2⟩

theorem runShards_kAgnostic (e : Env) (O : Oracles α τ) (fv kk kk2 : Int)
    (ns : Nat) : ∀ (l : List (Nat × Shard)) (st st2 : St α τ),
    KAgnostic st st2 →
    KAgnostic (runShards e O fv kk ns l st) (runShards e O fv kk2 ns l st2) := by
  intro l
  induction l with
  | nil => intro st st2 h; exact h
  | cons p l ih =>
    intro st st2 h
    exact ih _ _ ((chunkFold_kAgnostic e O fv kk kk2 p.1 p.2.offset
      (chunkStarts ns e.chunkSize p.2.dataLen) st st2 false h).1)

/-- C8 amended: `queryToTiledDist` never examines `k`.  Two runs that
differ only in `k` — including non-positive values — perform the same
kernel calls, the same writes and the same polls, produce the same distance
array, and emit the same trace except for the `k` recorded in the engine
calls; no validation error is possible because `k` influences nothing. -/
theorem c8_k_never_validated (e : Env) (O : Oracles α τ) (ns : Nat)
    (shards : List Shard) (d0 : List α) (fv : Int) (ec : Nat)
    (kk kk2 : Int) :
    (queryToTiledDist e O ns shards d0 fv kk ec).trace.map eraseK =
        (queryToTiledDist e O ns shards d0 fv kk2 ec).trace.map eraseK ∧
      (queryToTiledDist e O ns shards d0 fv kk ec).dists =
        (queryToTiledDist e O ns shards d0 fv kk2 ec).dists := by
  have h0 : KAgnostic
      (runShards e O fv kk ns (enumShards ec (shards.drop ec))
        { dists := d0, lastPaint := O.clock 0, clockIdx := 1, pollIdx := 0,
          timings := [], trace := ([] : List (Event α τ)) })
      (runShards e O fv kk2 ns (enumShards ec (shards.drop ec))
        { dists := d0, lastPaint := O.clock 0, clockIdx := 1, pollIdx := 0,
          timings := [], trace := ([] : List (Event α τ)) }) :=
    runShards_kAgnostic e O fv kk kk2 ns _ _ _ ⟨rfl, rfl, rfl, rfl, rfl, rfl⟩
  obtain ⟨h1, h2, h3, h4, h5, h6⟩ := h0
  simp only [queryToTiledDist]
  rw [h4]
  by_cases hc : O.cont
      (runShards e O fv kk2 ns (enumShards ec (shards.drop ec))
        { dists := d0, lastPaint := O.clock 0, clockIdx := 1, pollIdx := 0,
          timings := [], trace := ([] : List (Event α τ)) }).pollIdx
  · rw [if_pos hc, if_pos hc]
    refine ⟨?_, h1⟩
    simp [List.map_append, h6, h1, eraseK]
  · rw [if_neg hc, if_neg hc]
    exact ⟨h6, h1⟩

/-- C8 counterexample: with the non-positive `k = 0` the scan proceeds
normally — the first chunk's distance-kernel call happens and its distances
are written — so no `InvalidKError` is detected before scanning begins (the
orchestration layer contains no `k` validation at all). -/
theorem c8_counterexample :
    (queryToTiledDist ⟨30, 1⟩
        ({ clock := fun _ => 0, cont := fun _ => true,
           kernel := fun _ _ _ => (7 : Int), topkFn := fun _ => (0 : Int) } :
          Oracles Int Int) 1 [⟨1, 0⟩] [0] 5 0 0).dists = [7] ∧
      kernelRecs (queryToTiledDist ⟨30, 1⟩
        ({ clock := fun _ => 0, cont := fun _ => true,
           kernel := fun _ _ _ => (7 : Int), topkFn := fun _ => (0 : Int) } :
          Oracles Int Int) 1 [⟨1, 0⟩] [0] 5 0 0).trace = [(0, 0, 0)] := by
  decide

/-! ### The unconditional top-k of chunk 0 of shard 0 -/

theorem chunkFold_trace_ext (e : Env) (O : Oracles α τ) (fv kk : Int)
    (s off : Nat) : ∀ (l : List Nat) (st : St α τ) (b : Bool),
    ∃ tl, (chunkFold e O fv kk s off l (st, b)).1.trace = st.trace ++ tl := by
  intro l
  induction l with
  | nil => intro st b; exact ⟨[], (List.append_nil _).symm⟩
  | cons i l ih =>
    intro st b
    cases b with
    | true =>
      rw [chunkFold_broken]
      exact ⟨[], (List.append_nil _).symm⟩
    | false =>
      rw [chunkFold_cons_false]
      by_cases hc : O.cont st.pollIdx
      · rw [if_pos hc]
        obtain ⟨t1, ht1⟩ := processChunk_trace_ext e O fv kk s off i
          { st with pollIdx := st.pollIdx + 1 }
        obtain ⟨t2, ht2⟩ := ih
          (processChunk e O fv kk s off i { st with pollIdx := st.pollIdx + 1 })
          false
        refine ⟨t1 ++ t2, ?_⟩
        rw [ht2, ht1, List.append_assoc]
      · rw [if_neg hc]
        obtain ⟨t2, ht2⟩ := ih { st with pollIdx := st.pollIdx + 1 } true
        exact ⟨t2, ht2⟩

theorem runShards_trace_ext (e : Env) (O : Oracles α τ) (fv kk : Int)
    (ns : Nat) : ∀ (l : List (Nat × Shard)) (st : St α τ),
    ∃ tl, (runShards e O fv kk ns l st).trace = st.trace ++ tl := by
  intro l
  induction l with
  | nil => intro st; exact ⟨[], (List.append_nil _).symm⟩
  | cons p l ih =>
    intro st
    obtain ⟨t1, ht1⟩ := chunkFold_trace_ext e O fv kk p.1 p.2.offset
      (chunkStarts ns e.chunkSize p.2.dataLen) st false
    obtain ⟨t2, ht2⟩ := ih (runShard e O fv kk ns p.1 p.2 st)
    refine ⟨t1 ++ t2, ?_⟩
    have hstep : runShards e O fv kk ns (p :: l) st =
        runShards e O fv kk ns l (runShard e O fv kk ns p.1 p.2 st) := rfl
    rw [hstep, ht2]
    unfold runShard
    rw [ht1, List.append_assoc]

theorem run_trace_ext (e : Env) (O : Oracles α τ) (fv kk : Int) (ns : Nat)
    (shards : List Shard) (d0 : List α) (ec : Nat) :
    ∃ tl, (queryToTiledDist e O ns shards d0 fv kk ec).trace =
      (runShards e O fv kk ns (enumShards ec (shards.drop ec))
        { dists := d0, lastPaint := O.clock 0, clockIdx := 1, pollIdx := 0,
          timings := [], trace := ([] : List (Event α τ)) }).trace ++ tl := by
  simp only [queryToTiledDist]
  split
  · exact ⟨_, rfl⟩
  · exact ⟨[], (List.append_nil _).symm⟩

/-- A nonempty chunk-start list begins with 0 and all its later entries are
positive (the loop counter is strictly increasing). -/
theorem chunkStarts_head (ns cs L : Nat) :
    chunkStarts ns cs L = [] ∨
      ∃ tl, chunkStarts ns cs L = 0 :: tl ∧ ∀ i ∈ tl, 0 < i := by
  unfold chunkStarts
  cases hn : (L + (cs * ns - 1)) / (cs * ns) with
  | zero => left; rfl
  | succ n =>
    right
    have hcs : 0 < cs := by
      rcases Nat.eq_zero_or_pos cs with h0 | h
      · rw [h0] at hn; simp at hn
      · exact h
    rw [List.range_succ_eq_map, List.map_cons]
    refine ⟨((List.range n).map (fun m => m + 1)).map (fun m => m * cs),
      by simp, ?_⟩
    intro i hi
    simp only [List.map_map, List.mem_map, Function.comp] at hi
    obtain ⟨m, hm, rfl⟩ := hi
    exact Nat.mul_pos (Nat.succ_pos m) hcs

/-- C4 counterexample: a run whose first shard is empty.  Its first (and
only) chunk is chunk 0 of shard 1; one kernel call happens, yet no in-scan
`TopKUpdate` is ever emitted, because the unconditional branch tests
`i == 0 && embeddingCounter == 0` and the clock stays within the tick
budget.  This refutes "immediately after the very first chunk of the whole
scan a top-k recomputation is performed … unconditionally". -/
theorem c4_counterexample :
    kernelRecs (queryToTiledDist ⟨30, 1⟩
        ({ clock := fun _ => 0, cont := fun _ => true,
           kernel := fun _ _ _ => (7 : Int), topkFn := fun _ => (0 : Int) } :
          Oracles Int Int) 1 [⟨0, 0⟩, ⟨1, 0⟩] [0] 0 1 0).trace = [(1, 0, 0)] ∧
      (queryToTiledDist ⟨30, 1⟩
        ({ clock := fun _ => 0, cont := fun _ => true,
           kernel := fun _ _ _ => (7 : Int), topkFn := fun _ => (0 : Int) } :
          Oracles Int Int) 1 [⟨0, 0⟩, ⟨1, 0⟩] [0] 0 1 0).trace.countP
        Event.isTopkUpdate = 0 := by
  decide

/-- C4 amended: the unconditional recomputation fires for chunk 0 of shard
0 (so "the very first chunk of the whole scan" only when the first shard is
nonempty and the shard counter starts at 0): (a) when the first shard has
at least one chunk and the first poll reports continue, the run's trace
begins with the first kernel call followed immediately by a
`DistanceUpdate`, the engine call and a `TopKUpdate`, for every clock; (b)
any chunk other than chunk 0 of shard 0 appends a `TopKUpdate` exactly when
the kernel-completion timestamp exceeds `lastPaint` by more than the tick
budget. -/
theorem c4_first_chunk_topk (e : Env) (O : Oracles α τ) (ns : Nat)
    (d0 : List α) (fv kk : Int) :
    (∀ (sh : Shard) (rest : List Shard),
      chunkStarts ns e.chunkSize sh.dataLen ≠ [] → O.cont 0 = true →
      ∃ snap res tlx,
        (queryToTiledDist e O ns (sh :: rest) d0 fv kk 0).trace =
          .kernelCall 0 0 sh.offset (O.clock 1) ::
          .distanceUpdate snap (O.clock 2) (O.clock 0) ::
          .topkCall snap fv 0 1024 kk (O.clock 2) ::
          .topkUpdate res (O.clock 2) :: tlx) ∧
    (∀ (s i off : Nat) (st : St α τ), ¬(i = 0 ∧ s = 0) →
      (processChunk e O fv kk s off i st).trace.countP Event.isTopkUpdate =
        st.trace.countP Event.isTopkUpdate +
          if e.maxTick < O.clock (st.clockIdx + 1) - st.lastPaint
          then 1 else 0) := by
  constructor
  · intro sh rest hne hcont0
    rcases chunkStarts_head ns e.chunkSize sh.dataLen with h0 | ⟨tl, htl, -⟩
    · exact absurd h0 hne
    obtain ⟨t3, ht3⟩ := run_trace_ext e O fv kk ns (sh :: rest) d0 0
    rw [ht3]
    have hshape : enumShards 0 ((sh :: rest).drop 0) =
        (0, sh) :: enumShards 1 rest := rfl
    rw [hshape]
    have hstep : runShards e O fv kk ns ((0, sh) :: enumShards 1 rest)
        { dists := d0, lastPaint := O.clock 0, clockIdx := 1, pollIdx := 0,
          timings := [], trace := ([] : List (Event α τ)) } =
        runShards e O fv kk ns (enumShards 1 rest)
          (runShard e O fv kk ns 0 sh
            { dists := d0, lastPaint := O.clock 0, clockIdx := 1,
              pollIdx := 0, timings := [], trace := [] }) := rfl
    rw [hstep]
    obtain ⟨t2, ht2⟩ := runShards_trace_ext e O fv kk ns (enumShards 1 rest)
      (runShard e O fv kk ns 0 sh
        { dists := d0, lastPaint := O.clock 0, clockIdx := 1, pollIdx := 0,
          timings := [], trace := [] })
    rw [ht2]
    unfold runShard
    rw [htl, chunkFold_cons_false]
    rw [if_pos hcont0]
    obtain ⟨t1, ht1⟩ := chunkFold_trace_ext e O fv kk 0 sh.offset tl
      (processChunk e O fv kk 0 sh.offset 0
        { dists := d0, lastPaint := O.clock 0, clockIdx := 1, pollIdx := 1,
          timings := [], trace := [] }) false
    rw [ht1]
    have hpc : (processChunk e O fv kk 0 sh.offset 0
        { dists := d0, lastPaint := O.clock 0, clockIdx := 1, pollIdx := 1,
          timings := [], trace := ([] : List (Event α τ)) }).trace =
        [.kernelCall 0 0 sh.offset (O.clock 1),
         .distanceUpdate (writeTile d0 sh.offset 0 (O.kernel 0 0) e.chunkSize)
           (O.clock 2) (O.clock 0),
         .topkCall (writeTile d0 sh.offset 0 (O.kernel 0 0) e.chunkSize)
           fv 0 1024 kk (O.clock 2),
         .topkUpdate
           (O.topkFn (writeTile d0 sh.offset 0 (O.kernel 0 0) e.chunkSize))
           (O.clock 2)] := by
      simp only [processChunk]
      split
      · simp
      · rename_i hcond
        simp at hcond
    rw [hpc]
    exact ⟨writeTile d0 sh.offset 0 (O.kernel 0 0) e.chunkSize,
      O.topkFn (writeTile d0 sh.offset 0 (O.kernel 0 0) e.chunkSize),
      t1 ++ t2 ++ t3, by simp⟩
  · intro s i off st hni
    simp only [processChunk]
    by_cases hcond : e.maxTick < O.clock (st.clockIdx + 1) - st.lastPaint
    · rw [if_pos (Or.inr hcond), if_pos hcond]
      simp [List.countP_append, Event.isTopkUpdate, List.countP_cons]
    · rw [if_neg (by rintro (h | h); exact hni h; exact hcond h),
        if_neg hcond]
      simp [List.countP_append, Event.isTopkUpdate, List.countP_cons]

/-- Witness for the amended C4: a one-shard run whose first events are the
kernel call and the unconditional first `TopKUpdate`, and a non-first chunk
state where the tick condition decides the `TopKUpdate`. -/
theorem c4_first_chunk_topk_witness :
    ∃ snap res tlx,
      (queryToTiledDist ⟨30, 1⟩
        ({ clock := fun n => n, cont := fun _ => true,
           kernel := fun _ _ _ => (7 : Int), topkFn := fun _ => (0 : Int) } :
          Oracles Int Int) 1 [⟨1, 0⟩] [0] 5 2 0).trace =
        .kernelCall 0 0 0 1 :: .distanceUpdate snap 2 0 ::
        .topkCall snap 5 0 1024 2 2 :: .topkUpdate res 2 :: tlx :=
  (c4_first_chunk_topk ⟨30, 1⟩
    ({ clock := fun n => n, cont := fun _ => true,
       kernel := fun _ _ _ => (7 : Int), topkFn := fun _ => (0 : Int) } :
      Oracles Int Int) 1 [0] 5 2).1 ⟨1, 0⟩ [] (by decide) rfl

/-! ### Persistent cancellation stops the scan at a chunk boundary -/

/-- Replay the writes of a list of chunk starts of one shard. -/
def applyChunks (O : Oracles α τ) (cs s off : Nat) (l : List Nat)
    (d : List α) : List α :=
  l.foldl (fun d i => writeTile d off i (O.kernel s i) cs) d

theorem applySlots_map (O : Oracles α τ) (cs s off : Nat) (l : List Nat)
    (d : List α) :
    applySlots O cs (l.map (fun i => (s, i, off))) d =
      applyChunks O cs s off l d := by
  unfold applySlots applyChunks
  rw [List.foldl_map]

theorem applySlots_append (O : Oracles α τ) (cs : Nat)
    (l1 l2 : List (Nat × Nat × Nat)) (d : List α) :
    applySlots O cs (l1 ++ l2) d = applySlots O cs l2 (applySlots O cs l1 d) :=
  List.foldl_append _ _ l1 l2

/-- Behavior of the inner chunk loop under a threshold cancellation
predicate (continue exactly for the first `p` polls): the loop processes
exactly the first `p - pollIdx` pending chunks, in order, and consumes one
additional poll when it is cut short. -/
theorem chunkFold_thr (e : Env) (O : Oracles α τ) (fv kk : Int)
    (s off p : Nat) (hthr : ∀ n, O.cont n = true ↔ n < p) :
    ∀ (l : List Nat) (st : St α τ),
    kernelRecs (chunkFold e O fv kk s off l (st, false)).1.trace =
        kernelRecs st.trace ++
          ((l.take (p - st.pollIdx)).map (fun i => (s, i, off))) ∧
      (chunkFold e O fv kk s off l (st, false)).1.dists =
        applyChunks O e.chunkSize s off (l.take (p - st.pollIdx)) st.dists ∧
      (chunkFold e O fv kk s off l (st, false)).1.pollIdx =
        st.pollIdx + min l.length (p - st.pollIdx) +
          (if l.length ≤ p - st.pollIdx then 0 else 1) ∧
      finalRecs (chunkFold e O fv kk s off l (st, false)).1.trace =
        finalRecs st.trace := by
  intro l
  induction l with
  | nil =>
    intro st
    refine ⟨by simp [chunkFold], by simp [chunkFold, applyChunks],
      by simp [chunkFold], rfl⟩
  | cons i l ih =>
    intro st
    rw [chunkFold_cons_false]
    by_cases hc : st.pollIdx < p
    · have hcont : O.cont st.pollIdx = true := (hthr _).mpr hc
      rw [if_pos hcont]
      obtain ⟨ih1, ih2, ih3, ih4⟩ := ih
        (processChunk e O fv kk s off i { st with pollIdx := st.pollIdx + 1 })
      have hpoll2 : (processChunk e O fv kk s off i
          { st with pollIdx := st.pollIdx + 1 }).pollIdx =
          st.pollIdx + 1 := processChunk_pollIdx e O fv kk s off i _
      rw [hpoll2] at ih1 ih2 ih3
      have htake : (i :: l).take (p - st.pollIdx) =
          i :: l.take (p - (st.pollIdx + 1)) := by
        have h2 : p - st.pollIdx = (p - (st.pollIdx + 1)) + 1 := by omega
        rw [h2]
        rfl
      refine ⟨?_, ?_, ?_, ?_⟩
      · rw [ih1, processChunk_kernelRecs, htake]
        simp
      · rw [ih2, processChunk_dists, htake]
        rfl
      · rw [ih3]
        simp only [List.length_cons]
        by_cases hlen : l.length ≤ p - (st.pollIdx + 1)
        · rw [Nat.min_eq_left hlen, if_pos hlen,
            Nat.min_eq_left (by omega), if_pos (by omega)]
          omega
        · rw [Nat.min_eq_right (by omega), if_neg hlen,
            Nat.min_eq_right (by omega), if_neg (by omega)]
          omega
      · rw [ih4, processChunk_finalRecs]
    · rw [if_neg (fun h => hc ((hthr _).mp h))]
      rw [chunkFold_broken]
      have h0 : p - st.pollIdx = 0 := by omega
      refine ⟨?_, ?_, ?_, rfl⟩
      · rw [h0]
        simp
      · rw [h0]
        simp [applyChunks]
      · rw [h0]
        simp

/-- Behavior of the shard loop under a threshold cancellation predicate:
exactly the first `p` chunk slots of the whole scan are processed. -/
theorem runShards_thr (e : Env) (O : Oracles α τ) (fv kk : Int)
    (ns p : Nat) (hthr : ∀ n, O.cont n = true ↔ n < p) :
    ∀ (l : List (Nat × Shard)) (st : St α τ),
    kernelRecs (runShards e O fv kk ns l st).trace =
        kernelRecs st.trace ++
          (scanSlots ns e.chunkSize l).take (p - st.pollIdx) ∧
      (runShards e O fv kk ns l st).dists =
        applySlots O e.chunkSize
          ((scanSlots ns e.chunkSize l).take (p - st.pollIdx)) st.dists ∧
      min (st.pollIdx + (scanSlots ns e.chunkSize l).length) p ≤
        (runShards e O fv kk ns l st).pollIdx ∧
      st.pollIdx ≤ (runShards e O fv kk ns l st).pollIdx ∧
      finalRecs (runShards e O fv kk ns l st).trace = finalRecs st.trace := by
  intro l
  induction l with
  | nil =>
    intro st
    refine ⟨by simp [runShards, scanSlots],
      by simp [runShards, scanSlots, applySlots], ?_, le_refl _, rfl⟩
    simp [runShards, scanSlots]
  | cons p2 l ih =>
    intro st
    have hstep : runShards e O fv kk ns (p2 :: l) st =
        runShards e O fv kk ns l (runShard e O fv kk ns p2.1 p2.2 st) := rfl
    rw [hstep]
    obtain ⟨c1, c2, c3, c4⟩ := chunkFold_thr e O fv kk p2.1 p2.2.offset p hthr
      (chunkStarts ns e.chunkSize p2.2.dataLen) st
    obtain ⟨ih1, ih2, ih3, ih4, ih5⟩ :=
      ih (runShard e O fv kk ns p2.1 p2.2 st)
    have hshard : runShard e O fv kk ns p2.1 p2.2 st =
        (chunkFold e O fv kk p2.1 p2.2.offset
          (chunkStarts ns e.chunkSize p2.2.dataLen) (st, false)).1 := rfl
    set l0 := chunkStarts ns e.chunkSize p2.2.dataLen with hl0
    have hscan : scanSlots ns e.chunkSize (p2 :: l) =
        l0.map (fun i => (p2.1, i, p2.2.offset)) ++
          scanSlots ns e.chunkSize l := rfl
    have hlen0 : (l0.map (fun i => (p2.1, i, p2.2.offset))).length =
        l0.length := List.length_map _ _
    have hq1 : (runShard e O fv kk ns p2.1 p2.2 st).pollIdx =
        st.pollIdx + min l0.length (p - st.pollIdx) +
          (if l0.length ≤ p - st.pollIdx then 0 else 1) := by
      rw [hshard]; exact c3
    have hrem : p - (runShard e O fv kk ns p2.1 p2.2 st).pollIdx =
        (p - st.pollIdx) - l0.length := by
      rw [hq1]
      by_cases hbr : l0.length ≤ p - st.pollIdx
      · rw [Nat.min_eq_left hbr, if_pos hbr]
        omega
      · rw [Nat.min_eq_right (by omega), if_neg hbr]
        omega
    have htakes : (scanSlots ns e.chunkSize (p2 :: l)).take (p - st.pollIdx) =
        (l0.map (fun i => (p2.1, i, p2.2.offset))).take (p - st.pollIdx) ++
          (scanSlots ns e.chunkSize l).take
            ((p - st.pollIdx) - l0.length) := by
      rw [hscan, List.take_append_eq_append_take, hlen0]
    refine ⟨?_, ?_, ?_, ?_, ?_⟩
    · rw [ih1, hrem, htakes]
      rw [hshard, c1]
      rw [List.map_take, List.append_assoc]
    · rw [ih2, hrem, htakes, applySlots_append]
      rw [hshard, c2]
      rw [← List.map_take, applySlots_map]
    · rw [hscan, List.length_append, hlen0]
      by_cases hbr : l0.length ≤ p - st.pollIdx
      · have hq1e : (runShard e O fv kk ns p2.1 p2.2 st).pollIdx =
            st.pollIdx + l0.length := by
          rw [hq1, Nat.min_eq_left hbr, if_pos hbr]
          omega
        calc min (st.pollIdx + (l0.length +
              (scanSlots ns e.chunkSize l).length)) p
            = min ((runShard e O fv kk ns p2.1 p2.2 st).pollIdx +
                (scanSlots ns e.chunkSize l).length) p := by
              rw [hq1e, Nat.add_assoc]
        _ ≤ _ := ih3
      · have hple : p < (runShard e O fv kk ns p2.1 p2.2 st).pollIdx := by
          rw [hq1, Nat.min_eq_right (by omega), if_neg hbr]
          omega
        calc min (st.pollIdx + (l0.length +
              (scanSlots ns e.chunkSize l).length)) p ≤ p :=
            Nat.min_le_right _ _
        _ ≤ (runShard e O fv kk ns p2.1 p2.2 st).pollIdx :=
            Nat.le_of_lt hple
        _ ≤ _ := ih4
    · have hmono : st.pollIdx ≤ (runShard e O fv kk ns p2.1 p2.2 st).pollIdx := by
        rw [hq1]; omega
      exact Nat.le_trans hmono ih4
    · rw [ih5, hshard, c4]

theorem run_dists (e : Env) (O : Oracles α τ) (fv kk : Int) (ns : Nat)
    (shards : List Shard) (d0 : List α) (ec : Nat) :
    (queryToTiledDist e O ns shards d0 fv kk ec).dists =
      (runShards e O fv kk ns (enumShards ec (shards.drop ec))
        { dists := d0, lastPaint := O.clock 0, clockIdx := 1, pollIdx := 0,
          timings := [], trace := ([] : List (Event α τ)) }).dists := by
  simp only [queryToTiledDist]
  split <;> rfl

/-- C5 counterexample: a cancellation predicate that reports stop at its
very first poll (before chunk 0 begins) and continue afterwards.  The
code only leaves the inner loop: the next shard re-polls the predicate, so
chunk 0 of shard 1 is still processed, and the final combined event is
still emitted.  This refutes "no chunk with index ≥ i is ever processed …
no final top-k recomputation is performed and no further events are
emitted after the stop" for a general predicate. -/
theorem c5_counterexample :
    ({ clock := fun _ => 0, cont := fun n => decide (0 < n),
       kernel := fun _ _ _ => (7 : Int), topkFn := fun _ => (0 : Int) } :
        Oracles Int Int).cont 0 = false ∧
    kernelRecs (queryToTiledDist ⟨30, 1⟩
        ({ clock := fun _ => 0, cont := fun n => decide (0 < n),
           kernel := fun _ _ _ => (7 : Int), topkFn := fun _ => (0 : Int) } :
          Oracles Int Int) 1 [⟨1, 0⟩, ⟨1, 1⟩] [0, 0] 0 1 0).trace =
      [(1, 0, 1)] ∧
    (finalRecs (queryToTiledDist ⟨30, 1⟩
        ({ clock := fun _ => 0, cont := fun n => decide (0 < n),
           kernel := fun _ _ _ => (7 : Int), topkFn := fun _ => (0 : Int) } :
          Oracles Int Int) 1 [⟨1, 0⟩, ⟨1, 1⟩] [0, 0] 0 1 0).trace).length =
      1 := by
  decide

/-- C5 amended: under a persistent cancellation predicate — continue for
the first `p` polls, stop from then on — exactly the first `p` chunk slots
of the scan are processed, in order; the distance array holds precisely the
writes of those chunks applied in order (chunks before the stop keep their
fully written distances); and if the stop arrives before the chunk slots
are exhausted, no final top-k engine call happens and no final event is
emitted. -/
theorem c5_persistent_cancellation (e : Env) (O : Oracles α τ) (ns : Nat)
    (shards : List Shard) (d0 : List α) (fv kk : Int) (p : Nat)
    (hthr : ∀ n, O.cont n = true ↔ n < p) :
    kernelRecs (queryToTiledDist e O ns shards d0 fv kk 0).trace =
        (scanSlots ns e.chunkSize (enumShards 0 shards)).take p ∧
      (queryToTiledDist e O ns shards d0 fv kk 0).dists =
        applySlots O e.chunkSize
          ((scanSlots ns e.chunkSize (enumShards 0 shards)).take p) d0 ∧
      (p ≤ (scanSlots ns e.chunkSize (enumShards 0 shards)).length →
        finalRecs (queryToTiledDist e O ns shards d0 fv kk 0).trace = []) := by
  obtain ⟨h1, h2, h3, h4, h5⟩ := runShards_thr e O fv kk ns p hthr
    (enumShards 0 (shards.drop 0))
    { dists := d0, lastPaint := O.clock 0, clockIdx := 1, pollIdx := 0,
      timings := [], trace := ([] : List (Event α τ)) }
  rw [List.drop_zero] at h1 h2 h3 h4 h5
  refine ⟨?_, ?_, ?_⟩
  · rw [run_kernelRecs, List.drop_zero, h1]
    simp [kernelRecs]
  · rw [run_dists, List.drop_zero, h2]
    simp
  · intro hple
    have hge : p ≤ (runShards e O fv kk ns (enumShards 0 shards)
        { dists := d0, lastPaint := O.clock 0, clockIdx := 1, pollIdx := 0,
          timings := [], trace := ([] : List (Event α τ)) }).pollIdx := by
      have h6 := h3
      rw [Nat.zero_add, Nat.min_eq_right hple] at h6
      exact h6
    have hfalse : ¬ O.cont (runShards e O fv kk ns (enumShards 0 shards)
        { dists := d0, lastPaint := O.clock 0, clockIdx := 1, pollIdx := 0,
          timings := [], trace := ([] : List (Event α τ)) }).pollIdx =
        true := fun hctrue => by
      have h7 := (hthr _).mp hctrue
      omega
    simp only [queryToTiledDist, List.drop_zero]
    rw [if_neg hfalse]
    exact h5

/-- Witness for the amended C5: with two one-item shards and `p = 1`, only
slot `(0, 0, 0)` runs, the distance array holds exactly its write, and no
final event is emitted. -/
theorem c5_persistent_cancellation_witness :
    kernelRecs (queryToTiledDist ⟨30, 1⟩
        ({ clock := fun _ => 0, cont := fun n => decide (n < 1),
           kernel := fun _ _ _ => (5 : Int), topkFn := fun _ => (0 : Int) } :
          Oracles Int Int) 1 [⟨1, 0⟩, ⟨1, 1⟩] [0, 0] 0 1 0).trace =
        (scanSlots 1 1 (enumShards 0 [⟨1, 0⟩, ⟨1, 1⟩])).take 1 ∧
      (queryToTiledDist ⟨30, 1⟩
        ({ clock := fun _ => 0, cont := fun n => decide (n < 1),
           kernel := fun _ _ _ => (5 : Int), topkFn := fun _ => (0 : Int) } :
          Oracles Int Int) 1 [⟨1, 0⟩, ⟨1, 1⟩] [0, 0] 0 1 0).dists =
        applySlots
          ({ clock := fun _ => 0, cont := fun n => decide (n < 1),
             kernel := fun _ _ _ => (5 : Int), topkFn := fun _ => (0 : Int) } :
            Oracles Int Int) 1
          ((scanSlots 1 1 (enumShards 0 [⟨1, 0⟩, ⟨1, 1⟩])).take 1) [0, 0] ∧
      (1 ≤ (scanSlots 1 1 (enumShards 0 [⟨1, 0⟩, ⟨1, 1⟩])).length →
        finalRecs (queryToTiledDist ⟨30, 1⟩
          ({ clock := fun _ => 0, cont := fun n => decide (n < 1),
             kernel := fun _ _ _ => (5 : Int), topkFn := fun _ => (0 : Int) } :
            Oracles Int Int) 1 [⟨1, 0⟩, ⟨1, 1⟩] [0, 0] 0 1 0).trace = []) :=
  c5_persistent_cancellation ⟨30, 1⟩ _ 1 [⟨1, 0⟩, ⟨1, 1⟩] [0, 0] 0 1 1
    (fun n => by simp)

/-! ### Tick cadence of the in-scan top-k recomputations -/

/-- Cadence invariant: the kernel-completion timestamps of the in-scan
`TopKUpdate` events are spaced by more than the tick budget, and the last
of them does not exceed the current `lastPaint`. -/
def Inv (mt : Nat) (st : St α τ) : Prop :=
  (topkTimes st.trace).Chain' (fun a b => a + mt < b) ∧
    ∀ t, (topkTimes st.trace).getLast? = some t → t ≤ st.lastPaint

theorem processChunk_inv (e : Env) (O : Oracles α τ) (fv kk : Int)
    (s off i : Nat) (st : St α τ)
    (hmono : ∀ m n, m ≤ n → O.clock m ≤ O.clock n)
    (hfirst : i = 0 ∧ s = 0 → topkTimes st.trace = [])
    (h : Inv e.maxTick st) :
    Inv e.maxTick (processChunk e O fv kk s off i st) := by
  obtain ⟨hchain, hlast⟩ := h
  simp only [processChunk]
  split
  · rename_i hcond
    have htt : topkTimes (st.trace ++
        [.kernelCall s i off (O.clock st.clockIdx),
         .distanceUpdate (writeTile st.dists off i (O.kernel s i) e.chunkSize)
           (O.clock (st.clockIdx + 1)) st.lastPaint] ++
        [.topkCall (writeTile st.dists off i (O.kernel s i) e.chunkSize)
           fv 0 1024 kk (O.clock (st.clockIdx + 1)),
         .topkUpdate
           (O.topkFn (writeTile st.dists off i (O.kernel s i) e.chunkSize))
           (O.clock (st.clockIdx + 1))]) =
        topkTimes st.trace ++ [O.clock (st.clockIdx + 1)] := by
      rw [topkTimes_append, topkTimes_append]
      simp [topkTimes]
    constructor
    · show (topkTimes _).Chain' _
      rw [htt, List.chain'_append]
      refine ⟨hchain, List.chain'_singleton _, ?_⟩
      intro x hx y hy
      simp only [List.head?_cons, Option.mem_def, Option.some.injEq] at hy
      rcases hcond with hzero | htime
      · rw [hfirst hzero] at hx
        simp at hx
      · have hxle := hlast x hx
        omega
    · show ∀ t, (topkTimes _).getLast? = some t → _
      rw [htt]
      intro t ht
      rw [List.getLast?_concat] at ht
      have ht2 : t = O.clock (st.clockIdx + 1) := by
        exact (Option.some.injEq _ _).mp ht.symm
      rw [ht2]
      exact hmono _ _ (by omega)
  · have htt : topkTimes (st.trace ++
        [.kernelCall s i off (O.clock st.clockIdx),
         .distanceUpdate (writeTile st.dists off i (O.kernel s i) e.chunkSize)
           (O.clock (st.clockIdx + 1)) st.lastPaint]) =
        topkTimes st.trace := by
      rw [topkTimes_append]
      simp [topkTimes]
    exact ⟨by rw [show (St.trace _) = _ from rfl]; rw [htt]; exact hchain,
      by intro t ht; rw [htt] at ht; exact hlast t ht⟩

theorem chunkFold_inv_noFirst (e : Env) (O : Oracles α τ) (fv kk : Int)
    (s off : Nat) (hmono : ∀ m n, m ≤ n → O.clock m ≤ O.clock n) :
    ∀ (l : List Nat) (st : St α τ) (b : Bool),
    (∀ i ∈ l, ¬(i = 0 ∧ s = 0)) → Inv e.maxTick st →
    Inv e.maxTick (chunkFold e O fv kk s off l (st, b)).1 := by
  intro l
  induction l with
  | nil => intro st b _ h; exact h
  | cons i l ih =>
    intro st b hl h
    cases b with
    | true =>
      rw [chunkFold_broken]
      exact h
    | false =>
      rw [chunkFold_cons_false]
      by_cases hc : O.cont st.pollIdx
      · rw [if_pos hc]
        refine ih _ false (fun i2 h2 => hl i2 (List.mem_cons_of_mem i h2)) ?_
        exact processChunk_inv e O fv kk s off i _ hmono
          (fun hz => absurd hz (hl i (List.mem_cons_self i l))) h
      · rw [if_neg hc]
        exact ih _ true (fun i2 h2 => hl i2 (List.mem_cons_of_mem i h2)) h

theorem runShard_inv (e : Env) (O : Oracles α τ) (fv kk : Int) (ns s : Nat)
    (sh : Shard) (st : St α τ)
    (hmono : ∀ m n, m ≤ n → O.clock m ≤ O.clock n)
    (hfirst : s = 0 → topkTimes st.trace = []) (h : Inv e.maxTick st) :
    Inv e.maxTick (runShard e O fv kk ns s sh st) := by
  unfold runShard
  rcases chunkStarts_head ns e.chunkSize sh.dataLen with h0 | ⟨tl, htl, htlpos⟩
  · rw [h0]
    exact h
  · rw [htl, chunkFold_cons_false]
    by_cases hc : O.cont st.pollIdx
    · rw [if_pos hc]
      refine chunkFold_inv_noFirst e O fv kk s sh.offset hmono tl _ false
        (fun i2 h2 hz => by
          have := htlpos i2 h2
          omega) ?_
      exact processChunk_inv e O fv kk s sh.offset 0 _ hmono
        (fun hz => hfirst hz.2) h
    · rw [if_neg hc]
      rw [chunkFold_broken]
      exact h

theorem runShards_inv_pos (e : Env) (O : Oracles α τ) (fv kk : Int)
    (ns : Nat) (hmono : ∀ m n, m ≤ n → O.clock m ≤ O.clock n) :
    ∀ (l : List (Nat × Shard)) (st : St α τ),
    (∀ q ∈ l, 0 < q.1) → Inv e.maxTick st →
    Inv e.maxTick (runShards e O fv kk ns l st) := by
  intro l
  induction l with
  | nil => intro st _ h; exact h
  | cons p2 l ih =>
    intro st hl h
    have hstep : runShards e O fv kk ns (p2 :: l) st =
        runShards e O fv kk ns l (runShard e O fv kk ns p2.1 p2.2 st) := rfl
    rw [hstep]
    refine ih _ (fun q hq => hl q (List.mem_cons_of_mem p2 hq)) ?_
    exact runShard_inv e O fv kk ns p2.1 p2.2 st hmono
      (fun hz => absurd hz (Nat.pos_iff_ne_zero.mp
        (hl p2 (List.mem_cons_self p2 l)))) h

/-- C6: under a monotone clock, the kernel-completion timestamps attached
to consecutive in-scan `TopKUpdate` events are always more than the tick
budget apart (hence at least the tick budget apart); the unconditional
final combined event carries no in-scan `TopKUpdate` and is excluded. -/
theorem c6_monotone_cadence (e : Env) (O : Oracles α τ) (ns : Nat)
    (shards : List Shard) (d0 : List α) (fv kk : Int)
    (hmono : ∀ m n, m ≤ n → O.clock m ≤ O.clock n) :
    (topkTimes (queryToTiledDist e O ns shards d0 fv kk 0).trace).Chain'
      (fun a b => a + e.maxTick < b) := by
  have hfin : topkTimes (queryToTiledDist e O ns shards d0 fv kk 0).trace =
      topkTimes (runShards e O fv kk ns (enumShards 0 (shards.drop 0))
        { dists := d0, lastPaint := O.clock 0, clockIdx := 1, pollIdx := 0,
          timings := [], trace := ([] : List (Event α τ)) }).trace := by
    simp only [queryToTiledDist]
    split
    · rw [topkTimes_append]
      simp [topkTimes]
    · rfl
  rw [hfin]
  have hinv0 : Inv (α := α) (τ := τ) e.maxTick
      { dists := d0, lastPaint := O.clock 0, clockIdx := 1, pollIdx := 0,
        timings := [], trace := [] } :=
    ⟨List.chain'_nil, fun t ht => by simp [topkTimes] at ht⟩
  cases shards with
  | nil =>
    exact (runShards_inv_pos e O fv kk ns hmono _ _
      (by simp [enumShards]) hinv0).1
  | cons sh rest =>
    have hshape : enumShards 0 ((sh :: rest).drop 0) =
        (0, sh) :: enumShards 1 rest := rfl
    rw [hshape]
    have hstep : runShards e O fv kk ns ((0, sh) :: enumShards 1 rest)
        { dists := d0, lastPaint := O.clock 0, clockIdx := 1, pollIdx := 0,
          timings := [], trace := ([] : List (Event α τ)) } =
        runShards e O fv kk ns (enumShards 1 rest)
          (runShard e O fv kk ns 0 sh
            { dists := d0, lastPaint := O.clock 0, clockIdx := 1,
              pollIdx := 0, timings := [], trace := [] }) := rfl
    rw [hstep]
    refine (runShards_inv_pos e O fv kk ns hmono (enumShards 1 rest) _
      (fun q hq => Nat.lt_of_lt_of_le Nat.zero_lt_one
        (enumShards_mem_fst 1 rest q hq)) ?_).1
    exact runShard_inv e O fv kk ns 0 sh _ hmono (fun _ => rfl) hinv0

/-- Witness for C6: chunk size 1, tick budget 0, identity clock; the two
in-scan `TopKUpdate` timestamps 2 and 6 satisfy the cadence bound, so the
conclusion is non-vacuous. -/
theorem c6_monotone_cadence_witness :
    (topkTimes (queryToTiledDist ⟨0, 1⟩
        ({ clock := fun n => n, cont := fun _ => true,
           kernel := fun _ _ _ => (7 : Int), topkFn := fun _ => (0 : Int) } :
          Oracles Int Int) 1 [⟨2, 0⟩] [0, 0] 0 1 0).trace).Chain'
      (fun a b => a + (0 : Nat) < b) ∧
    topkTimes (queryToTiledDist ⟨0, 1⟩
        ({ clock := fun n => n, cont := fun _ => true,
           kernel := fun _ _ _ => (7 : Int), topkFn := fun _ => (0 : Int) } :
          Oracles Int Int) 1 [⟨2, 0⟩] [0, 0] 0 1 0).trace = [2, 6] :=
  ⟨c6_monotone_cadence ⟨0, 1⟩ _ 1 [⟨2, 0⟩] [0, 0] 0 1 (fun m n h => h),
   by decide⟩

end EmbeddingDB
